import Mathlib

/-!
# Verification of the mbackk split-file archiver

Shallow embedding of the program's core (src/multipart.rs, src/struct_stream.rs,
src/storage.rs, src/main.rs) and proofs of the specification's claims about it.

Modelling conventions:
* Machine bytes are `Nat` values below 256; files and streams are `List Nat`.
* The disk behind a `MultipartWriter`/`MultipartReader` is the list of part
  files in numeric order (`disk[i]` is the contents of the file named `i`);
  the on-disk parts are numbered gaplessly from 0, so "file `i+1` exists"
  is `i + 1 < disk.length`.
* Rust `u64`/`u32` arithmetic is `Nat` with explicit `% 2 ^ w` where the code
  narrows (`as u32`); `byteorder` little-endian encodings are spelled out.
* Self-recursive Rust functions are embedded with an explicit fuel argument so
  that every definition is executable by kernel reduction; lemmas discharge the
  fuel whenever the source recursion terminates.
* Fallible operations return `Option`/`Except`; the boxed `Box<dyn Error>`
  payload is modelled as `Unit`.
-/

namespace Mbackk

/-- A machine byte (value expected to lie below 256). -/
abbrev Byte := Nat

/-! ## Chunked byte channel: `MultipartWriter` (src/multipart.rs, lines 10-67)

The Rust struct owns one open file handle; here the whole destination
directory (`disk`) is part of the state so that on-disk effects are visible.
The invariant `disk.length = file_number + 1` links the two views: the open
handle is the last entry of `disk`. -/

/-- State of `MultipartWriter` (src/multipart.rs lines 10-21) together with the
modelled destination directory: `disk.getD i []` is the contents of the part
file named `i`. -/
structure MultipartWriter where
  file_number : Nat
  file_size : Nat
  max_file_size : Nat
  disk : List (List Byte)
  deriving Repr, DecidableEq

/-- Effect of `MultipartWriter::new` (src/multipart.rs lines 25-41): the part
file named `0` is created (empty) immediately, before any write. -/
def MultipartWriter.new (max_file_size : Nat) : MultipartWriter :=
  { file_number := 0, file_size := 0, max_file_size := max_file_size, disk := [[]] }

/-- Rollover inside `MultipartWriter::write` (src/multipart.rs lines 48-54):
advance to the next file number, create that part file (empty), reset the
byte counter. -/
def MultipartWriter.roll (w : MultipartWriter) : MultipartWriter :=
  { w with
    file_number := w.file_number + 1
    file_size := 0
    disk := w.disk ++ [[]] }

/-- The non-rolling tail of `MultipartWriter::write` (src/multipart.rs lines
56-60): append `min (buf.length) can_write` bytes to the current part and
report that count. -/
def MultipartWriter.put (w : MultipartWriter) (buf : List Byte) : MultipartWriter × Nat :=
  let n := min buf.length (w.max_file_size - w.file_size)
  ({ w with
      file_size := w.file_size + n
      disk := w.disk.dropLast ++ [w.disk.getLastD [] ++ buf.take n] }, n)

/-- One `Write::write` call on `MultipartWriter` (src/multipart.rs lines 45-62).
The Rust function retries itself after rolling to a fresh part; `fuel` bounds
that self-recursion (`none` means the recursion did not bottom out within
`fuel` calls, which for `max_file_size = 0` and a non-empty buffer is every
fuel). Returns the updated writer and the byte count the call reports. -/
def MultipartWriter.write : Nat → MultipartWriter → List Byte → Option (MultipartWriter × Nat)
  | 0, _, _ => none
  | fuel + 1, w, buf =>
    if w.max_file_size - w.file_size = 0 then
      MultipartWriter.write fuel w.roll buf
    else
      some (w.put buf)

/-- The `Write::write_all` loop (Rust std) over `MultipartWriter.write`: keep
writing until the buffer is exhausted; a reported count of 0 on a non-empty
buffer is the `WriteZero` error. Fuel bounds the loop; `buf.length` steps
always suffice because each successful iteration consumes at least one byte. -/
def MultipartWriter.writeAllF : Nat → MultipartWriter → List Byte → Option MultipartWriter
  | _, w, [] => some w
  | 0, _, _ :: _ => none
  | fuel + 1, w, b :: bs =>
    match MultipartWriter.write 2 w (b :: bs) with
    | none => none
    | some (w', n) =>
      if n = 0 then none else MultipartWriter.writeAllF fuel w' ((b :: bs).drop n)

/-- Canonical `write_all`: fuel `buf.length` suffices (each round writes at
least one byte). -/
def MultipartWriter.writeAll (w : MultipartWriter) (buf : List Byte) : Option MultipartWriter :=
  MultipartWriter.writeAllF buf.length w buf

/-! ## Chunked byte channel: `MultipartReader` (src/multipart.rs lines 69-115) -/

/-- State of `MultipartReader` (src/multipart.rs lines 70-79): the position of
the open handle inside the current part is `pos` (implicit in the Rust `File`
cursor); `file_size` is the struct's byte counter for the current part. -/
structure MultipartReader where
  file_number : Nat
  pos : Nat
  file_size : Nat
  deriving Repr, DecidableEq

/-- One `Read::read` call on `MultipartReader` (src/multipart.rs lines 99-115)
against the destination directory `parts`. A plain file read returns
`min n (remaining in current part)` bytes; on 0 the reader advances to the
next numbered file if it exists and retries, otherwise it reports 0 bytes
(clean end of stream). Fuel bounds the self-recursion; it is spent only while
the file number advances, so `parts.length + 1` always suffices. -/
def MultipartReader.read :
    Nat → List (List Byte) → MultipartReader → Nat → Option (MultipartReader × List Byte)
  | 0, _, _, _ => none
  | fuel + 1, parts, r, n =>
    let cur := parts.getD r.file_number []
    let k := min n (cur.length - r.pos)
    if k = 0 then
      let next := r.file_number + 1
      if next < parts.length then
        MultipartReader.read fuel parts { file_number := next, pos := 0, file_size := 0 } n
      else
        some ({ r with file_number := next }, [])
    else
      let r' := { r with
        pos := r.pos + k
        file_size := r.file_size + k }
      some (r', (cur.drop r.pos).take k)

/-- Drain the reader: repeated `read` calls with buffer size `n` until a call
reports 0 bytes, concatenating the results.  Fuel bounds the loop. -/
def MultipartReader.readAllF (parts : List (List Byte)) (n : Nat) :
    Nat → MultipartReader → List Byte
  | 0, _ => []
  | fuel + 1, r =>
    match MultipartReader.read (parts.length + 1) parts r n with
    | none => []
    | some (r', bs) => if bs = [] then [] else bs ++ MultipartReader.readAllF parts n fuel r'

/-- Canonical drain of a fresh `MultipartReader` over `parts` with buffer size
`n`: the fuel covers one loop round per byte plus one per (possibly empty)
part plus the final end-of-stream round. -/
def MultipartReader.readAll (parts : List (List Byte)) (n : Nat) : List Byte :=
  MultipartReader.readAllF parts n (parts.flatten.length + parts.length + 1)
    { file_number := 0, pos := 0, file_size := 0 }

/-- Canonical single `read` call: fuel `parts.length + 1` always suffices for
the source recursion (the file number strictly increases and the recursion
stops no later than the first missing part). -/
def MultipartReader.readC (parts : List (List Byte)) (r : MultipartReader) (n : Nat) :
    Option (MultipartReader × List Byte) :=
  MultipartReader.read (parts.length + 1) parts r n

/-- The bytes a `MultipartReader` in state `r` has not yet delivered: the rest
of the current part, then all later parts. -/
def MultipartReader.remaining (parts : List (List Byte)) (r : MultipartReader) : List Byte :=
  (parts.getD r.file_number []).drop r.pos ++ (parts.drop (r.file_number + 1)).flatten

/-- Structural invariant tying the `MultipartWriter` struct fields to the
modelled destination directory: the open handle is the last part file, the
byte counter matches its length and never exceeds the configured maximum, and
each rolled-past part is exactly full. -/
def MultipartWriter.Inv (w : MultipartWriter) : Prop :=
  w.disk.length = w.file_number + 1 ∧
  w.file_size = (w.disk.getLastD []).length ∧
  w.file_size ≤ w.max_file_size ∧
  ∀ i, i + 1 < w.disk.length → (w.disk.getD i []).length = w.max_file_size

/-- Writer states reachable from `MultipartWriter::new` by any sequence of
`write` calls (fuel 2 is the source's actual recursion depth whenever a call
returns). -/
inductive MultipartWriter.Reachable : MultipartWriter → Prop
  | base (M : Nat) : MultipartWriter.Reachable (MultipartWriter.new M)
  | step {w w' : MultipartWriter} {buf : List Byte} {n : Nat} :
      MultipartWriter.Reachable w → MultipartWriter.write 2 w buf = some (w', n) →
      MultipartWriter.Reachable w'

/-! ## Framed record channel (src/struct_stream.rs)

Records are `[4-byte little-endian length][bincode payload]`.  The bincode
(1.x legacy options) wire format used by the program is: enum variant index as
4-byte little-endian `u32`, `String` as 8-byte little-endian `u64` length
followed by its UTF-8 bytes, `u64` as 8 little-endian bytes.  Names are
modelled directly as their UTF-8 byte sequences (`List Byte`), so the UTF-8
validation step of `String` deserialization is elided; the writer only ever
emits valid UTF-8, so this widens only the set of accepted corrupt payloads. -/

/-- Little-endian bytes of `n as u32` (the `% 256` per byte realises the
narrowing `as u32` cast of src/struct_stream.rs line 59). -/
def u32le (n : Nat) : List Byte :=
  [n % 256, n / 256 % 256, n / 65536 % 256, n / 16777216 % 256]

/-- Little-endian bytes of `n as u64`. -/
def u64le (n : Nat) : List Byte :=
  [n % 256, n / 256 % 256, n / 65536 % 256, n / 16777216 % 256,
    n / 4294967296 % 256, n / 1099511627776 % 256, n / 281474976710656 % 256,
    n / 72057594037927936 % 256]

/-- `read_u32::<LittleEndian>` from a byte stream: fails when fewer than 4
bytes are available. -/
def readU32 : List Byte → Option (Nat × List Byte)
  | b0 :: b1 :: b2 :: b3 :: rest =>
    some (b0 + 256 * b1 + 65536 * b2 + 16777216 * b3, rest)
  | _ => none

/-- Little-endian `u64` from a byte stream: fails when fewer than 8 bytes are
available. -/
def readU64 : List Byte → Option (Nat × List Byte)
  | b0 :: b1 :: b2 :: b3 :: b4 :: b5 :: b6 :: b7 :: rest =>
    some (b0 + 256 * b1 + 65536 * b2 + 16777216 * b3 + 4294967296 * b4 +
      1099511627776 * b5 + 281474976710656 * b6 + 72057594037927936 * b7, rest)
  | _ => none

/-- Bincode `String` field: `u64` length then that many bytes. -/
def readBString (s : List Byte) : Option (List Byte × List Byte) :=
  match readU64 s with
  | none => none
  | some (len, s₁) => if len ≤ s₁.length then some (s₁.take len, s₁.drop len) else none

/-- The `StorageOperation` enum (src/storage.rs lines 11-19); names carried as
UTF-8 byte sequences. -/
inductive StorageOperation where
  | EnterDirectory (name : List Byte)
  | LeaveDirectory
  | CreateFile (name : List Byte) (size : Nat)
  deriving Repr, DecidableEq

/-- Bincode serialization of a `StorageOperation` (variant index as `u32`,
string as `u64` length + bytes, `u64` size as 8 bytes, all little-endian). -/
def serializeOp : StorageOperation → List Byte
  | .EnterDirectory name => u32le 0 ++ u64le name.length ++ name
  | .LeaveDirectory => u32le 1
  | .CreateFile name size => u32le 2 ++ u64le name.length ++ name ++ u64le size

/-- Bincode deserialization of a `StorageOperation` payload.  Mirrors the
slice-based `bincode::deserialize`: sequential reads, unknown variant index or
exhausted input is an error, trailing bytes are ignored. -/
def deserializeOp (payload : List Byte) : Option StorageOperation :=
  match readU32 payload with
  | none => none
  | some (tag, s) =>
    if tag = 0 then
      match readBString s with
      | none => none
      | some (name, _) => some (.EnterDirectory name)
    else if tag = 1 then some .LeaveDirectory
    else if tag = 2 then
      match readBString s with
      | none => none
      | some (name, s₁) =>
        match readU64 s₁ with
        | none => none
        | some (size, _) => some (.CreateFile name size)
    else none

/-- Bytes emitted by `StructWriter::write` (src/struct_stream.rs lines 52-63):
4-byte little-endian payload length (the length is narrowed `as u32`), then
the payload. -/
def writeRecordBytes (op : StorageOperation) : List Byte :=
  u32le (serializeOp op).length ++ serializeOp op

/-- `StructReader::next` (src/struct_stream.rs lines 16-27): read the 4-byte
length prefix, read exactly that many payload bytes, deserialize.  Returns the
operation and the unconsumed rest of the stream; `none` is any failure. -/
def readRecord (s : List Byte) : Option (StorageOperation × List Byte) :=
  match readU32 s with
  | none => none
  | some (len, s₁) =>
    if len ≤ s₁.length then
      match deserializeOp (s₁.take len) with
      | none => none
      | some op => some (op, s₁.drop len)
    else none

/-- The span-reading loop of `StorageReader::interpret`'s `CreateFile` branch
(src/storage.rs lines 120-129): while bytes remain, request
`min bytes_left (1024 * 1024)` bytes through `StructReader::next_bytes`
(`read_exact`, so a short stream is an error).  Returns the content read and
the unconsumed rest.  Fuel bounds the loop; `size` rounds always suffice. -/
def readSpanF : Nat → List Byte → Nat → Option (List Byte × List Byte)
  | _, s, 0 => some ([], s)
  | 0, _, _ + 1 => none
  | fuel + 1, s, left + 1 =>
    let chunk := min (left + 1) (1024 * 1024)
    if s.length < chunk then none
    else
      match readSpanF fuel (s.drop chunk) (left + 1 - chunk) with
      | none => none
      | some (c, rest) => some (s.take chunk ++ c, rest)

/-! ## Tree restorer state (src/storage.rs lines 90-134)

The destination filesystem is modelled explicitly: paths are lists of name
segments (each a UTF-8 byte sequence), and the disk is the list of directory
paths plus the list of (file path, contents) pairs, in creation order. -/

/-- A filesystem path, as the list of its name segments. -/
abbrev Path := List (List Byte)

/-- The modelled destination filesystem. -/
structure Fs where
  dirs : List Path
  files : List (Path × List Byte)
  deriving Repr, DecidableEq

/-- The empty destination disk. -/
def Fs.empty : Fs := { dirs := [], files := [] }

/-- The paths at which a file currently exists. -/
def Fs.fileNames (fs : Fs) : List Path := fs.files.map Prod.fst

/-- `std::fs::create_dir`: fails if anything already exists at `p` or if the
parent directory is missing (a path with a single segment is created relative
to an existing root). -/
def createDir (p : Path) (fs : Fs) : Except Unit Fs :=
  if p ∈ fs.dirs ∨ p ∈ fs.fileNames ∨ (p.dropLast ≠ [] ∧ p.dropLast ∉ fs.dirs) then
    .error ()
  else
    .ok { fs with dirs := fs.dirs ++ [p] }

/-- The nonempty ancestors of `p` (including `p` itself), shortest first:
what `create_dir_all` creates in order. -/
def prefixesNE (p : Path) : List Path :=
  (List.range p.length).map fun i => p.take (i + 1)

/-- One directory-creation pass of `std::fs::create_dir_all`: create each
listed path unless it already exists; an existing file at one of them is an
error. -/
def mkdirs : List Path → Fs → Except Unit Fs
  | [], fs => .ok fs
  | q :: qs, fs =>
    if q ∈ fs.dirs then mkdirs qs fs
    else if q ∈ fs.fileNames then .error ()
    else mkdirs qs { fs with dirs := fs.dirs ++ [q] }

/-- `std::fs::create_dir_all p`: create every nonempty ancestor of `p`,
shortest first. -/
def createDirAll (p : Path) (fs : Fs) : Except Unit Fs :=
  mkdirs (prefixesNE p) fs

/-- `File::create` then writing `c`: any previous file at `p` is truncated and
replaced. -/
def setFile (p : Path) (c : List Byte) (fs : Fs) : Fs :=
  { fs with files := fs.files.filter (fun q => q.1 ≠ p) ++ [(p, c)] }

/-- `StorageReader::interpret` (src/storage.rs lines 97-132) over an in-memory
byte stream: ensure the current base path exists, read the next record — on
any record-read failure stop with success — then interpret the operation:
`EnterDirectory` creates the subdirectory (failure propagates) and descends;
`LeaveDirectory` pops one segment; `CreateFile` creates the file (`File::create`
fails on an existing directory or missing parent) and reads exactly `size`
content bytes in bounded chunks (a short stream propagates as an error).
Fuel bounds the self-recursion; every round consumes at least one stream byte,
so `s.length + 1` always suffices. -/
def interpretF : Nat → List Byte → Path → Fs → Except Unit Fs
  | 0, _, _, _ => .error ()
  | fuel + 1, s, base, fs =>
    match createDirAll base fs with
    | .error e => .error e
    | .ok fs₁ =>
      match readRecord s with
      | none => .ok fs₁
      | some (op, rest) =>
        match op with
        | .EnterDirectory name =>
          match createDir (base ++ [name]) fs₁ with
          | .error e => .error e
          | .ok fs₂ => interpretF fuel rest (base ++ [name]) fs₂
        | .LeaveDirectory => interpretF fuel rest base.dropLast fs₁
        | .CreateFile name size =>
          if (base ++ [name]) ∈ fs₁.dirs ∨
              ((base ++ [name]).dropLast ≠ [] ∧ (base ++ [name]).dropLast ∉ fs₁.dirs) then
            .error ()
          else
            match readSpanF size rest size with
            | none => .error ()
            | some (content, rest₂) =>
              interpretF fuel rest₂ base (setFile (base ++ [name]) content fs₁)

/-- Canonical `interpret`: fuel `s.length + 1` always suffices. -/
def interpret (s : List Byte) (base : Path) (fs : Fs) : Except Unit Fs :=
  interpretF (s.length + 1) s base fs

/-! ## Tree archiver (src/storage.rs lines 22-78, src/main.rs lines 13-36) -/

/-- A source directory tree: what a filesystem walk yields, with entries in
the order the filesystem produces them.  Names are UTF-8 byte sequences,
file contents are byte sequences. -/
inductive Entry where
  | file (name : List Byte) (content : List Byte)
  | dir (name : List Byte) (entries : List Entry)
  deriving Repr

mutual
/-- The byte stream `StorageWriter::write_directory`/`write_file` emits for one
entry: for a file, a `CreateFile` record followed by its contents; for a
directory, an `EnterDirectory` record, the encodings of its entries in order,
and a `LeaveDirectory` record. -/
def encodeEntry : Entry → List Byte
  | .file n c => writeRecordBytes (.CreateFile n c.length) ++ c
  | .dir n es =>
    writeRecordBytes (.EnterDirectory n) ++ encodeEntries es ++
      writeRecordBytes .LeaveDirectory

/-- Byte stream for a list of sibling entries, in order. -/
def encodeEntries : List Entry → List Byte
  | [] => []
  | e :: es => encodeEntry e ++ encodeEntries es
end

/-- File contents split into the `1024 * 1024`-byte chunks in which
`StorageWriter::write_file` reads and forwards them (fuel-bounded; the loop
runs at most `c.length` times since every chunk is nonempty). -/
def chunksF : Nat → List Byte → List (List Byte)
  | _, [] => []
  | 0, _ :: _ => []
  | fuel + 1, c => c.take (1024 * 1024) :: chunksF fuel (c.drop (1024 * 1024))

/-- Canonical chunk split of file contents. -/
def chunks (c : List Byte) : List (List Byte) := chunksF c.length c

/-- The two `write_all` buffers a single `StructWriter::write` call issues:
the 4-byte length prefix and the payload. -/
def recordBufs (op : StorageOperation) : List (List Byte) :=
  [u32le (serializeOp op).length, serializeOp op]

mutual
/-- The exact sequence of `write_all` buffers the archiver pushes into the
`MultipartWriter` for one entry (record prefix, record payload, and content
chunks, in stream order). -/
def entryBufs : Entry → List (List Byte)
  | .file n c => recordBufs (.CreateFile n c.length) ++ chunks c
  | .dir n es =>
    recordBufs (.EnterDirectory n) ++ entriesBufs es ++ recordBufs .LeaveDirectory

/-- `write_all` buffers for a list of sibling entries, in order. -/
def entriesBufs : List Entry → List (List Byte)
  | [] => []
  | e :: es => entryBufs e ++ entriesBufs es
end

/-- Issue a sequence of `write_all` calls against a `MultipartWriter`. -/
def runWrites (w : MultipartWriter) : List (List Byte) → Option MultipartWriter
  | [] => some w
  | b :: bs =>
    match w.writeAll b with
    | none => none
    | some w' => runWrites w' bs

/-- The whole backup write path of `backup` (src/main.rs lines 13-36): a fresh
`MultipartWriter` on the destination, driven by the archiver's `write_all`
calls for the origin tree. -/
def backupWriter (T : Entry) (M : Nat) : Option MultipartWriter :=
  runWrites (MultipartWriter.new M) (entryBufs T)

mutual
/-- The destination-side effect restoring one entry at `base` should have:
exactly what the interpreter's successful execution performs. -/
def applyEntry (base : Path) : Entry → Fs → Fs
  | .file n c, fs => setFile (base ++ [n]) c fs
  | .dir n es, fs =>
    applyEntries (base ++ [n]) es { fs with dirs := fs.dirs ++ [base ++ [n]] }

/-- Destination-side effect of a list of sibling entries, in order. -/
def applyEntries (base : Path) : List Entry → Fs → Fs
  | [], fs => fs
  | e :: es, fs => applyEntries base es (applyEntry base e fs)
end

mutual
/-- Every path (directory or file) an entry creates below `base`, in creation
order. -/
def entryPaths (base : Path) : Entry → List Path
  | .file n _ => [base ++ [n]]
  | .dir n es => (base ++ [n]) :: entriesPaths (base ++ [n]) es

/-- Paths created by a list of sibling entries. -/
def entriesPaths (base : Path) : List Entry → List Path
  | [] => []
  | e :: es => entryPaths base e ++ entriesPaths base es
end

mutual
/-- The directory paths an entry creates below `base`. -/
def dirPathsE (base : Path) : Entry → List Path
  | .file _ _ => []
  | .dir n es => (base ++ [n]) :: dirPathsEs (base ++ [n]) es

/-- Directory paths created by a list of sibling entries. -/
def dirPathsEs (base : Path) : List Entry → List Path
  | [] => []
  | e :: es => dirPathsE base e ++ dirPathsEs base es
end

mutual
/-- The (file path, contents) pairs an entry creates below `base`. -/
def filePairsE (base : Path) : Entry → List (Path × List Byte)
  | .file n c => [(base ++ [n], c)]
  | .dir n es => filePairsEs (base ++ [n]) es

/-- File pairs created by a list of sibling entries. -/
def filePairsEs (base : Path) : List Entry → List (Path × List Byte)
  | [] => []
  | e :: es => filePairsE base e ++ filePairsEs base es
end

/-- The leaf name of an entry. -/
def entryName : Entry → List Byte
  | .file n _ => n
  | .dir n _ => n

mutual
/-- Well-formedness of a source tree, exactly the guarantees a real directory
walk provides: sibling names are distinct (a directory cannot contain two
equally-named entries), every name is short enough that its record payload
length fits the `u32` record prefix, and every file is smaller than 2 to the 64
bytes (its size is a `u64`). -/
def WfEntry : Entry → Prop
  | .file n c => n.length + 20 < 4294967296 ∧ c.length < 18446744073709551616
  | .dir n es => n.length + 20 < 4294967296 ∧ (es.map entryName).Nodup ∧ WfEntries es

/-- Well-formedness of a list of sibling entries. -/
def WfEntries : List Entry → Prop
  | [] => True
  | e :: es => WfEntry e ∧ WfEntries es
end

/-- All paths currently occupied on the modelled disk (directories and
files). -/
def occupied (fs : Fs) : List Path := fs.dirs ++ fs.fileNames

/-- Machine-width side conditions under which an operation's bincode encoding
round-trips: string lengths and file sizes fit their `u64` fields.  (These are
facts, not assumptions, for values originating from Rust `String`/`u64`.) -/
def OpWf : StorageOperation → Prop
  | .EnterDirectory n => n.length < 18446744073709551616
  | .LeaveDirectory => True
  | .CreateFile n size => n.length < 18446744073709551616 ∧ size < 18446744073709551616

/-- Every nonempty ancestor of `base` already exists on the disk (so the
`create_dir_all` at the head of `interpret` is a no-op). -/
def PrefixesIn (base : Path) (fs : Fs) : Prop :=
  ∀ q ∈ prefixesNE base, q ∈ fs.dirs

/-- The listed paths are pairwise distinct and none of them is occupied on the
disk yet. -/
def FreshList (fs : Fs) (ps : List Path) : Prop :=
  ps.Nodup ∧ ∀ p ∈ ps, p ∉ occupied fs

/-- The concrete tree of the specification's scenario:
`root/{a.txt(5 bytes "hello"), sub/{b.txt(5 bytes "world")}}`. -/
def scenarioTree : Entry :=
  .dir [114, 111, 111, 116]
    [.file [97, 46, 116, 120, 116] [104, 101, 108, 108, 111],
     .dir [115, 117, 98]
       [.file [98, 46, 116, 120, 116] [119, 111, 114, 108, 100]]]

/-! ## Basic lemmas about the chunked byte channel -/

theorem dropLast_flatten_getLastD (l : List (List Byte)) :
    l.dropLast.flatten ++ l.getLastD [] = l.flatten := by
  induction l with
  | nil => simp
  | cons a l ih =>
    cases l with
    | nil => simp
    | cons b t => simpa using ih

theorem write_zero_max (w : MultipartWriter) (h : w.max_file_size = 0) (buf : List Byte) :
    ∀ f, MultipartWriter.write f w buf = none := by
  intro f
  induction f generalizing w with
  | zero => simp [MultipartWriter.write]
  | succ f ih =>
    have hc : w.max_file_size - w.file_size = 0 := by omega
    have hr : w.roll.max_file_size = 0 := h
    simp [MultipartWriter.write, hc, ih w.roll hr]

theorem write_two_eq (w : MultipartWriter) (buf : List Byte) (hM : 1 ≤ w.max_file_size) :
    MultipartWriter.write 2 w buf =
      if w.max_file_size - w.file_size = 0 then some (w.roll.put buf)
      else some (w.put buf) := by
  by_cases h : w.max_file_size - w.file_size = 0
  · have h2 : w.roll.max_file_size - w.roll.file_size ≠ 0 := by
      simp only [MultipartWriter.roll]
      omega
    simp [MultipartWriter.write, h, h2]
  · simp [MultipartWriter.write, h]

theorem write_fuel_eq (w : MultipartWriter) (buf : List Byte) (hM : 1 ≤ w.max_file_size)
    {f : Nat} (hf : 2 ≤ f) :
    MultipartWriter.write f w buf = MultipartWriter.write 2 w buf := by
  obtain ⟨k, rfl⟩ : ∃ k, f = k + 2 := ⟨f - 2, by omega⟩
  by_cases h : w.max_file_size - w.file_size = 0
  · have h2 : w.roll.max_file_size - w.roll.file_size ≠ 0 := by
      simp only [MultipartWriter.roll]
      omega
    simp [MultipartWriter.write, h, h2]
  · simp [MultipartWriter.write, h]

theorem put_spec (w : MultipartWriter) (buf : List Byte) :
    (w.put buf).2 = min buf.length (w.max_file_size - w.file_size) ∧
    (w.put buf).1.disk.flatten = w.disk.flatten ++ buf.take (w.put buf).2 ∧
    (w.put buf).1.max_file_size = w.max_file_size ∧
    (w.put buf).1.file_number = w.file_number ∧
    (w.put buf).1.file_size = w.file_size + (w.put buf).2 := by
  refine ⟨rfl, ?_, rfl, rfl, rfl⟩
  simp only [MultipartWriter.put, List.flatten_append, List.flatten_cons, List.flatten_nil,
    List.append_nil]
  rw [← List.append_assoc, dropLast_flatten_getLastD]

theorem roll_spec (w : MultipartWriter) :
    w.roll.disk.flatten = w.disk.flatten ∧ w.roll.max_file_size = w.max_file_size ∧
    w.roll.file_number = w.file_number + 1 ∧ w.roll.file_size = 0 ∧
    w.roll.disk = w.disk ++ [[]] := by
  refine ⟨?_, rfl, rfl, rfl, rfl⟩
  simp [MultipartWriter.roll]

theorem write_two_spec (w : MultipartWriter) (buf : List Byte) (hM : 1 ≤ w.max_file_size) :
    ∃ w' n, MultipartWriter.write 2 w buf = some (w', n) ∧
      w'.disk.flatten = w.disk.flatten ++ buf.take n ∧
      n ≤ buf.length ∧ (buf ≠ [] → 1 ≤ n) ∧ w'.max_file_size = w.max_file_size := by
  rw [write_two_eq w buf hM]
  by_cases h : w.max_file_size - w.file_size = 0
  · refine ⟨(w.roll.put buf).1, (w.roll.put buf).2, by simp [h], ?_, ?_, ?_, ?_⟩
    · rw [(put_spec w.roll buf).2.1, (roll_spec w).1]
    · rw [(put_spec w.roll buf).1]; exact Nat.min_le_left _ _
    · intro hb
      rw [(put_spec w.roll buf).1]
      have : 1 ≤ buf.length := by
        cases buf with
        | nil => exact absurd rfl hb
        | cons a t => simp
      have hroll : w.roll.max_file_size - w.roll.file_size = w.max_file_size := by
        simp [MultipartWriter.roll]
      rw [hroll]
      omega
    · rw [(put_spec w.roll buf).2.2.1, (roll_spec w).2.1]
  · refine ⟨(w.put buf).1, (w.put buf).2, by simp [h], (put_spec w buf).2.1, ?_, ?_,
      (put_spec w buf).2.2.1⟩
    · rw [(put_spec w buf).1]; exact Nat.min_le_left _ _
    · intro hb
      rw [(put_spec w buf).1]
      have : 1 ≤ buf.length := by
        cases buf with
        | nil => exact absurd rfl hb
        | cons a t => simp
      omega

theorem writeAllF_spec (fuel : Nat) :
    ∀ (w : MultipartWriter) (buf : List Byte), 1 ≤ w.max_file_size → buf.length ≤ fuel →
    ∃ w', MultipartWriter.writeAllF fuel w buf = some w' ∧
      w'.disk.flatten = w.disk.flatten ++ buf ∧ w'.max_file_size = w.max_file_size := by
  induction fuel with
  | zero =>
    intro w buf hM hl
    have : buf = [] := List.length_eq_zero.mp (Nat.le_zero.mp hl)
    subst this
    exact ⟨w, rfl, by simp, rfl⟩
  | succ fuel ih =>
    intro w buf hM hl
    cases buf with
    | nil => exact ⟨w, rfl, by simp, rfl⟩
    | cons b bs =>
      obtain ⟨w₁, n, hw, hflat, hle, hpos, hmax⟩ := write_two_spec w (b :: bs) hM
      have hn : 1 ≤ n := hpos (by simp)
      obtain ⟨w', hw', hflat', hmax'⟩ :=
        ih w₁ ((b :: bs).drop n) (hmax ▸ hM) (by simp at hl ⊢; omega)
      refine ⟨w', ?_, ?_, by rw [hmax', hmax]⟩
      · simp only [MultipartWriter.writeAllF, hw]
        have : ¬ n = 0 := by omega
        simp [this, hw']
      · rw [hflat', hflat, List.append_assoc, List.take_append_drop]

theorem writeAll_spec (w : MultipartWriter) (buf : List Byte) (hM : 1 ≤ w.max_file_size) :
    ∃ w', w.writeAll buf = some w' ∧
      w'.disk.flatten = w.disk.flatten ++ buf ∧ w'.max_file_size = w.max_file_size :=
  writeAllF_spec buf.length w buf hM le_rfl

/-! ## Writer invariant: part sizes -/

theorem getD_dropLast : ∀ (l : List (List Byte)) (i : Nat), i + 1 < l.length →
    l.dropLast.getD i [] = l.getD i []
  | _ :: _ :: _, 0, _ => rfl
  | a :: b :: t, i + 1, h => getD_dropLast (b :: t) i (by simpa using h)

theorem getD_append_lt : ∀ (l l' : List (List Byte)) (i : Nat), i < l.length →
    (l ++ l').getD i [] = l.getD i []
  | _ :: _, _, 0, _ => rfl
  | a :: t, l', i + 1, h => getD_append_lt t l' i (by simpa using h)

theorem getLastD_append_single : ∀ (l : List (List Byte)) (x : List Byte) (d : List Byte),
    (l ++ [x]).getLastD d = x
  | [], _, _ => rfl
  | a :: t, x, d => by
    show (a :: (t ++ [x])).getLastD d = x
    rw [List.getLastD_cons]
    exact getLastD_append_single t x a

theorem getD_pred_eq_getLastD : ∀ (l : List (List Byte)), l ≠ [] →
    l.getD (l.length - 1) [] = l.getLastD []
  | [a], _ => rfl
  | a :: b :: t, _ => by
    have := getD_pred_eq_getLastD (b :: t) (by simp)
    simpa using this

theorem inv_put (w : MultipartWriter) (buf : List Byte) (hInv : w.Inv)
    (hcan : w.max_file_size - w.file_size ≠ 0) : (w.put buf).1.Inv := by
  obtain ⟨h1, h2, h3, h4⟩ := hInv
  have hne : w.disk ≠ [] := by
    intro h
    rw [h] at h1
    simp at h1
  have hlen : w.disk.dropLast.length = w.disk.length - 1 := List.length_dropLast _
  have hn : (w.put buf).2 = min buf.length (w.max_file_size - w.file_size) := rfl
  refine ⟨?_, ?_, ?_, ?_⟩
  · simp only [MultipartWriter.put, List.length_append, List.length_cons, List.length_nil,
      hlen]
    omega
  · show w.file_size + _ = _
    simp only [MultipartWriter.put, getLastD_append_single, List.length_append,
      List.length_take]
    omega
  · show w.file_size + _ ≤ _
    have := Nat.min_le_right buf.length (w.max_file_size - w.file_size)
    simp only [MultipartWriter.put]
    omega
  · intro i hi
    simp only [MultipartWriter.put, List.length_append, List.length_cons, List.length_nil,
      hlen] at hi ⊢
    rw [getD_append_lt _ _ i (by omega), getD_dropLast _ i (by omega)]
    exact h4 i (by omega)

theorem inv_roll_put (w : MultipartWriter) (buf : List Byte) (hInv : w.Inv)
    (hcan : w.max_file_size - w.file_size = 0) : (w.roll.put buf).1.Inv := by
  obtain ⟨h1, h2, h3, h4⟩ := hInv
  have hne : w.disk ≠ [] := by
    intro h
    rw [h] at h1
    simp at h1
  have hfull : w.file_size = w.max_file_size := by omega
  have hdisk : (w.roll.put buf).1.disk = w.disk ++ [buf.take (min buf.length w.max_file_size)] := by
    simp [MultipartWriter.put, MultipartWriter.roll, List.dropLast_concat,
      getLastD_append_single]
  refine ⟨?_, ?_, ?_, ?_⟩
  · rw [hdisk]
    simp only [MultipartWriter.put, MultipartWriter.roll, List.length_append, List.length_cons,
      List.length_nil]
    omega
  · show 0 + _ = _
    rw [hdisk, getLastD_append_single]
    simp only [MultipartWriter.put, MultipartWriter.roll, List.length_take, Nat.sub_zero]
    omega
  · show 0 + _ ≤ _
    have := Nat.min_le_right buf.length (w.roll.max_file_size - w.roll.file_size)
    simp only [MultipartWriter.roll] at this
    simp only [MultipartWriter.put, MultipartWriter.roll]
    omega
  · intro i hi
    rw [hdisk] at hi ⊢
    simp only [List.length_append, List.length_cons, List.length_nil] at hi
    rw [getD_append_lt _ _ i (by omega)]
    show (w.disk.getD i []).length = w.max_file_size
    rcases Nat.lt_or_ge (i + 1) w.disk.length with h | h
    · exact h4 i h
    · have hieq : i = w.disk.length - 1 := by omega
      rw [hieq, getD_pred_eq_getLastD _ hne, ← h2, hfull]

theorem inv_write {w w' : MultipartWriter} {buf : List Byte} {n : Nat} (hInv : w.Inv)
    (h : MultipartWriter.write 2 w buf = some (w', n)) : w'.Inv := by
  by_cases hM : 1 ≤ w.max_file_size
  · rw [write_two_eq w buf hM] at h
    by_cases hc : w.max_file_size - w.file_size = 0
    · rw [if_pos hc] at h
      have hw : w' = (w.roll.put buf).1 := by
        have := Option.some.inj h
        exact congrArg Prod.fst this.symm ▸ rfl
      rw [hw]
      exact inv_roll_put w buf hInv hc
    · rw [if_neg hc] at h
      have hw : w' = (w.put buf).1 := by
        have := Option.some.inj h
        exact congrArg Prod.fst this.symm ▸ rfl
      rw [hw]
      exact inv_put w buf hInv hc
  · have h0 : w.max_file_size = 0 := by omega
    rw [write_zero_max w h0 buf 2] at h
    cases h

theorem inv_new (M : Nat) : (MultipartWriter.new M).Inv := by
  refine ⟨rfl, rfl, by simp [MultipartWriter.new], ?_⟩
  intro i hi
  simp [MultipartWriter.new] at hi

theorem inv_reachable {w : MultipartWriter} (h : w.Reachable) : w.Inv := by
  induction h with
  | base M => exact inv_new M
  | step _ hw ih => exact inv_write ih hw

/-! ## Reader lemmas: the multipart stream is the concatenation of the parts -/

theorem read_irrel : ∀ (f₁ f₂ : Nat) (parts : List (List Byte)) (r : MultipartReader) (n : Nat),
    parts.length - r.file_number < f₁ → parts.length - r.file_number < f₂ →
    MultipartReader.read f₁ parts r n = MultipartReader.read f₂ parts r n := by
  intro f₁
  induction f₁ with
  | zero => intro f₂ parts r n h1; omega
  | succ f₁ ih =>
    intro f₂ parts r n h1 h2
    obtain ⟨g, rfl⟩ : ∃ g, f₂ = g + 1 := ⟨f₂ - 1, by omega⟩
    show MultipartReader.read (f₁ + 1) parts r n = MultipartReader.read (g + 1) parts r n
    simp only [MultipartReader.read]
    by_cases hk : min n ((parts.getD r.file_number []).length - r.pos) = 0
    · rw [if_pos hk, if_pos hk]
      by_cases hnext : r.file_number + 1 < parts.length
      · rw [if_pos hnext, if_pos hnext]
        exact ih g parts _ n (by show parts.length - (r.file_number + 1) < f₁; omega)
          (by show parts.length - (r.file_number + 1) < g; omega)
      · rw [if_neg hnext, if_neg hnext]
    · rw [if_neg hk, if_neg hk]

theorem read_spec : ∀ (fuel : Nat) (parts : List (List Byte)) (r : MultipartReader) (n : Nat),
    1 ≤ n → parts.length - r.file_number < fuel →
    ∃ r' bs, MultipartReader.read fuel parts r n = some (r', bs) ∧
      bs ++ MultipartReader.remaining parts r' = MultipartReader.remaining parts r ∧
      (bs = [] ↔ MultipartReader.remaining parts r = []) := by
  intro fuel
  induction fuel with
  | zero => intro parts r n hn h; omega
  | succ fuel ih =>
    intro parts r n hn hfuel
    by_cases hk : min n ((parts.getD r.file_number []).length - r.pos) = 0
    · have hx : (parts.getD r.file_number []).length - r.pos = 0 := by
        rcases Nat.min_eq_zero_iff.mp hk with h | h
        · omega
        · exact h
      have hcur : (parts.getD r.file_number []).drop r.pos = [] :=
        List.drop_eq_nil_of_le (by omega)
      by_cases hnext : r.file_number + 1 < parts.length
      · obtain ⟨r', bs, heq, hsum, hiff⟩ :=
          ih parts { file_number := r.file_number + 1, pos := 0, file_size := 0 } n hn
            (by show parts.length - (r.file_number + 1) < fuel; omega)
        have hrem : MultipartReader.remaining parts
            { file_number := r.file_number + 1, pos := 0, file_size := 0 } =
            MultipartReader.remaining parts r := by
          show (parts.getD (r.file_number + 1) []).drop 0 ++
              (parts.drop (r.file_number + 1 + 1)).flatten =
            (parts.getD r.file_number []).drop r.pos ++ (parts.drop (r.file_number + 1)).flatten
          rw [hcur, List.drop_zero, List.nil_append, List.drop_eq_getElem_cons hnext,
            List.flatten_cons, List.getD_eq_getElem parts [] hnext]
        refine ⟨r', bs, ?_, by rw [hsum, hrem], by rw [hiff, hrem]⟩
        show MultipartReader.read (fuel + 1) parts r n = some (r', bs)
        simp only [MultipartReader.read]
        rw [if_pos hk, if_pos hnext]
        exact heq
      · have h1 : parts.drop (r.file_number + 1) = [] := List.drop_eq_nil_of_le (by omega)
        have h2 : parts.getD (r.file_number + 1) [] = [] :=
          List.getD_eq_default parts [] (by omega)
        have h3 : parts.drop (r.file_number + 1 + 1) = [] := List.drop_eq_nil_of_le (by omega)
        have hremr : MultipartReader.remaining parts r = [] := by
          show (parts.getD r.file_number []).drop r.pos ++
              (parts.drop (r.file_number + 1)).flatten = []
          rw [hcur, h1, List.flatten_nil, List.append_nil]
        refine ⟨{ r with file_number := r.file_number + 1 }, [], ?_, ?_, ?_⟩
        · show MultipartReader.read (fuel + 1) parts r n = _
          simp only [MultipartReader.read]
          rw [if_pos hk, if_neg hnext]
        · show ([] : List Byte) ++ ((parts.getD (r.file_number + 1) []).drop r.pos ++
              (parts.drop (r.file_number + 1 + 1)).flatten) = MultipartReader.remaining parts r
          rw [hremr, h2, h3, List.flatten_nil, List.drop_nil, List.append_nil, List.nil_append]
        · simp [hremr]
    · set cur := parts.getD r.file_number [] with hcurdef
      set k := min n (cur.length - r.pos) with hkdef
      have hkle : k ≤ cur.length - r.pos := Nat.min_le_right _ _
      refine ⟨{ r with pos := r.pos + k, file_size := r.file_size + k },
        (cur.drop r.pos).take k, ?_, ?_, ?_⟩
      · simp only [MultipartReader.read, ← hcurdef, ← hkdef, if_neg hk]
      · simp only [MultipartReader.remaining, ← hcurdef]
        rw [← List.append_assoc]
        congr 1
        have : cur.drop (r.pos + k) = (cur.drop r.pos).drop k := by
          rw [List.drop_drop, Nat.add_comm]
        rw [this, List.take_append_drop]
      · constructor
        · intro hbs
          have : ((cur.drop r.pos).take k).length = 0 := by rw [hbs]; rfl
          simp only [List.length_take, List.length_drop] at this
          omega
        · intro hrem
          simp only [MultipartReader.remaining, ← hcurdef, List.append_eq_nil] at hrem
          have : cur.length - r.pos = 0 := by
            have := congrArg List.length hrem.1
            simpa using this
          omega

theorem readAllF_eq : ∀ (fuel : Nat) (parts : List (List Byte)) (n : Nat) (r : MultipartReader),
    1 ≤ n → (MultipartReader.remaining parts r).length < fuel →
    MultipartReader.readAllF parts n fuel r = MultipartReader.remaining parts r := by
  intro fuel
  induction fuel with
  | zero => intro parts n r hn h; omega
  | succ fuel ih =>
    intro parts n r hn hfuel
    obtain ⟨r', bs, heq, hsum, hiff⟩ := read_spec (parts.length + 1) parts r n hn (by omega)
    by_cases hbs : bs = []
    · simp only [MultipartReader.readAllF, heq, if_pos hbs]
      exact (hiff.mp hbs).symm
    · have hlen : bs.length + (MultipartReader.remaining parts r').length =
          (MultipartReader.remaining parts r).length := by
        have := congrArg List.length hsum
        simpa using this
      have hbs1 : 1 ≤ bs.length := by
        cases bs with
        | nil => exact absurd rfl hbs
        | cons a t => simp
      simp only [MultipartReader.readAllF, heq, if_neg hbs]
      rw [ih parts n r' hn (by omega), hsum]

theorem readAll_eq (parts : List (List Byte)) (n : Nat) (hn : 1 ≤ n) :
    MultipartReader.readAll parts n = parts.flatten := by
  have hrem : MultipartReader.remaining parts { file_number := 0, pos := 0, file_size := 0 } =
      parts.flatten := by
    cases parts with
    | nil => rfl
    | cons p ps => simp [MultipartReader.remaining]
  rw [MultipartReader.readAll, readAllF_eq _ parts n _ hn (by rw [hrem]; omega), hrem]

/-! ## Claims about the chunked byte channel -/

/-- C3: Writer short-write contract: a `write` call with a non-empty buffer and
positive maximum part size never fails; when the current part has no remaining
capacity the writer first advances to part `file_number + 1` with its byte
counter reset to 0 and retries the same write against the fresh part, and
otherwise it writes exactly `min (buffer length) remaining` bytes to the
current part and returns that count. -/
theorem claim_C3_short_write_contract (w : MultipartWriter) (buf : List Byte)
    (hM : 1 ≤ w.max_file_size) (hbuf : buf ≠ []) :
    ∃ w' n, MultipartWriter.write 2 w buf = some (w', n) ∧ 1 ≤ n ∧
      (w.max_file_size - w.file_size = 0 →
        MultipartWriter.write 2 w buf = MultipartWriter.write 1 w.roll buf ∧
        w.roll.file_number = w.file_number + 1 ∧ w.roll.file_size = 0 ∧
        n = min buf.length w.max_file_size) ∧
      (¬ w.max_file_size - w.file_size = 0 →
        n = min buf.length (w.max_file_size - w.file_size) ∧
        w'.file_number = w.file_number ∧ w'.file_size = w.file_size + n) := by
  have hlen : 1 ≤ buf.length := by
    cases buf with
    | nil => exact absurd rfl hbuf
    | cons a t => simp
  by_cases hc : w.max_file_size - w.file_size = 0
  · have hrollc : w.roll.max_file_size - w.roll.file_size = w.max_file_size := by
      simp [MultipartWriter.roll]
    have h1 : MultipartWriter.write 2 w buf = MultipartWriter.write 1 w.roll buf := by
      show (if w.max_file_size - w.file_size = 0 then MultipartWriter.write 1 w.roll buf
        else some (w.put buf)) = MultipartWriter.write 1 w.roll buf
      rw [if_pos hc]
    have h2 : MultipartWriter.write 1 w.roll buf = some (w.roll.put buf) := by
      show (if w.roll.max_file_size - w.roll.file_size = 0 then
          MultipartWriter.write 0 w.roll buf else some (w.roll.put buf)) =
        some (w.roll.put buf)
      rw [if_neg (by rw [hrollc]; omega)]
    have hn2 : (w.roll.put buf).2 = min buf.length w.max_file_size := by
      rw [(put_spec w.roll buf).1, hrollc]
    refine ⟨(w.roll.put buf).1, (w.roll.put buf).2, by rw [h1, h2], ?_,
      fun _ => ⟨by rw [h1], rfl, rfl, hn2⟩, fun hnc => absurd hc hnc⟩
    rw [hn2]
    exact Nat.le_min.mpr ⟨hlen, hM⟩
  · have h1 : MultipartWriter.write 2 w buf = some (w.put buf) := by
      show (if w.max_file_size - w.file_size = 0 then MultipartWriter.write 1 w.roll buf
        else some (w.put buf)) = some (w.put buf)
      rw [if_neg hc]
    refine ⟨(w.put buf).1, (w.put buf).2, h1, ?_, fun hcc => absurd hcc hc,
      fun _ => ⟨(put_spec w buf).1, (put_spec w buf).2.2.2.1, (put_spec w buf).2.2.2.2⟩⟩
    rw [(put_spec w buf).1]
    exact Nat.le_min.mpr ⟨hlen, by omega⟩

/-- C3 witness: the contract instantiated at a fresh writer with maximum part
size 1 and the two-byte buffer `[9, 9]`. -/
theorem claim_C3_short_write_contract_witness :
    ∃ w' n, MultipartWriter.write 2 (MultipartWriter.new 1) [9, 9] = some (w', n) ∧ 1 ≤ n ∧
      ((MultipartWriter.new 1).max_file_size - (MultipartWriter.new 1).file_size = 0 →
        MultipartWriter.write 2 (MultipartWriter.new 1) [9, 9] =
          MultipartWriter.write 1 (MultipartWriter.new 1).roll [9, 9] ∧
        (MultipartWriter.new 1).roll.file_number = (MultipartWriter.new 1).file_number + 1 ∧
        (MultipartWriter.new 1).roll.file_size = 0 ∧
        n = min [9, 9].length (MultipartWriter.new 1).max_file_size) ∧
      (¬ (MultipartWriter.new 1).max_file_size - (MultipartWriter.new 1).file_size = 0 →
        n = min [9, 9].length
          ((MultipartWriter.new 1).max_file_size - (MultipartWriter.new 1).file_size) ∧
        w'.file_number = (MultipartWriter.new 1).file_number ∧
        w'.file_size = (MultipartWriter.new 1).file_size + n) :=
  claim_C3_short_write_contract (MultipartWriter.new 1) [9, 9] (by decide) (by decide)

/-- C4: Part size bound invariant: in every writer state reachable by a sequence
of `write` calls, the bytes-written-to-current-part counter never exceeds the
maximum part size, every part file other than the last has size exactly the
maximum, and no part file exceeds the maximum. -/
theorem claim_C4_part_size_bound {w : MultipartWriter} (h : w.Reachable) :
    w.file_size ≤ w.max_file_size ∧
    (∀ i, i + 1 < w.disk.length → (w.disk.getD i []).length = w.max_file_size) ∧
    ∀ part ∈ w.disk, part.length ≤ w.max_file_size := by
  obtain ⟨h1, h2, h3, h4⟩ := inv_reachable h
  refine ⟨h3, h4, ?_⟩
  intro part hp
  obtain ⟨i, hi, rfl⟩ := List.mem_iff_getElem.mp hp
  rw [← List.getD_eq_getElem w.disk [] hi]
  rcases Nat.lt_or_ge (i + 1) w.disk.length with hlt | hge
  · rw [h4 i hlt]
  · have hieq : i = w.disk.length - 1 := by omega
    subst hieq
    rw [getD_pred_eq_getLastD _ (by intro hnil; rw [hnil] at hi; simp at hi), ← h2]
    exact h3

/-- C4 witness: the bound instantiated at the state reached from
`MultipartWriter.new 3` by one `write` of four bytes (three are accepted). -/
theorem claim_C4_part_size_bound_witness :
    (MultipartWriter.mk 0 3 3 [[7, 7, 7]]).file_size ≤
        (MultipartWriter.mk 0 3 3 [[7, 7, 7]]).max_file_size ∧
    (∀ i, i + 1 < (MultipartWriter.mk 0 3 3 [[7, 7, 7]]).disk.length →
      ((MultipartWriter.mk 0 3 3 [[7, 7, 7]]).disk.getD i []).length =
        (MultipartWriter.mk 0 3 3 [[7, 7, 7]]).max_file_size) ∧
    ∀ part ∈ (MultipartWriter.mk 0 3 3 [[7, 7, 7]]).disk,
      part.length ≤ (MultipartWriter.mk 0 3 3 [[7, 7, 7]]).max_file_size :=
  claim_C4_part_size_bound
    (MultipartWriter.Reachable.step (MultipartWriter.Reachable.base 3)
      (show MultipartWriter.write 2 (MultipartWriter.new 3) [7, 7, 7, 7] =
          some (MultipartWriter.mk 0 3 3 [[7, 7, 7]], 3) by decide))

/-- C5: Clean end-of-stream: when the current part is exhausted, a read switches
to the part numbered `file_number + 1` and retries if that file exists, and
otherwise returns 0 bytes as a successful result rather than an error. -/
theorem claim_C5_end_of_stream (parts : List (List Byte)) (r : MultipartReader) (n : Nat)
    (hn : 1 ≤ n) (hex : (parts.getD r.file_number []).length ≤ r.pos) :
    (r.file_number + 1 < parts.length →
      MultipartReader.readC parts r n =
        MultipartReader.readC parts
          { file_number := r.file_number + 1, pos := 0, file_size := 0 } n) ∧
    (¬ r.file_number + 1 < parts.length →
      MultipartReader.readC parts r n = some ({ r with file_number := r.file_number + 1 }, [])) := by
  have hk : min n ((parts.getD r.file_number []).length - r.pos) = 0 := by
    have hz : (parts.getD r.file_number []).length - r.pos = 0 := by omega
    rw [hz]
    simp
  constructor
  · intro hnext
    show MultipartReader.read (parts.length + 1) parts r n = _
    simp only [MultipartReader.read]
    rw [if_pos hk, if_pos hnext]
    exact read_irrel parts.length (parts.length + 1) parts _ n
      (by show parts.length - (r.file_number + 1) < parts.length; omega)
      (by show parts.length - (r.file_number + 1) < parts.length + 1; omega)
  · intro hnext
    show MultipartReader.read (parts.length + 1) parts r n = _
    simp only [MultipartReader.read]
    rw [if_pos hk, if_neg hnext]

/-- C5 witness: at the single, fully read part `[[4]]` the next numbered part
does not exist, so the read reports 0 bytes successfully. -/
theorem claim_C5_end_of_stream_witness :
    MultipartReader.readC [[4]] (MultipartReader.mk 0 1 1) 1 =
      some (MultipartReader.mk 1 1 1, []) :=
  (claim_C5_end_of_stream [[4]] (MultipartReader.mk 0 1 1) 1 (by decide) (by decide)).2
    (by decide)

/-- C7 as stated is false at a concrete input: immediately after
`MultipartWriter::new` (max part size 5), before any byte has been written, the
destination directory already contains the part file named 0 (empty). -/
theorem claim_C7_counterexample :
    (MultipartWriter.new 5).disk = [[]] ∧ (MultipartWriter.new 5).disk ≠ [] := by
  decide

/-- C7 amended: constructing the writer eagerly creates part 0 as an empty
file; part `k + 1` is created during a `write` call exactly when the current
part has no remaining capacity; and a `write` never reopens a part that was
rolled past: when it does not roll it leaves all non-final parts unchanged,
and when it rolls the whole previous directory contents are frozen as the
non-final parts. -/
theorem claim_C7_lazy_creation_amended (w : MultipartWriter) (buf : List Byte)
    (hM : 1 ≤ w.max_file_size) (hw : w.disk ≠ []) :
    (∀ M, (MultipartWriter.new M).disk = [[]]) ∧
    ∃ w' n, MultipartWriter.write 2 w buf = some (w', n) ∧
      (¬ w.max_file_size - w.file_size = 0 →
        w'.disk.length = w.disk.length ∧ w'.disk.dropLast = w.disk.dropLast) ∧
      (w.max_file_size - w.file_size = 0 →
        w'.disk.length = w.disk.length + 1 ∧ w'.disk.dropLast = w.disk) := by
  refine ⟨fun M => rfl, ?_⟩
  rw [write_two_eq w buf hM]
  by_cases hc : w.max_file_size - w.file_size = 0
  · rw [if_pos hc]
    have hdisk : (w.roll.put buf).1.disk =
        w.disk ++ [buf.take (min buf.length w.max_file_size)] := by
      simp [MultipartWriter.put, MultipartWriter.roll, List.dropLast_concat,
        getLastD_append_single]
    refine ⟨(w.roll.put buf).1, (w.roll.put buf).2, rfl, fun hnc => absurd hc hnc, fun _ => ?_⟩
    rw [hdisk]
    exact ⟨by simp, List.dropLast_concat⟩
  · rw [if_neg hc]
    refine ⟨(w.put buf).1, (w.put buf).2, rfl, fun _ => ?_, fun hcc => absurd hcc hc⟩
    have hdisk : (w.put buf).1.disk =
        w.disk.dropLast ++ [w.disk.getLastD [] ++ buf.take (w.put buf).2] := rfl
    constructor
    · rw [hdisk]
      simp only [List.length_append, List.length_cons, List.length_nil, List.length_dropLast]
      have : 1 ≤ w.disk.length := by
        cases hd : w.disk with
        | nil => exact absurd hd hw
        | cons a t => simp [hd]
      omega
    · rw [hdisk, List.dropLast_concat]

/-- C7 amended witness: instantiated at a fresh writer with maximum part size 2
and buffer `[5]`. -/
theorem claim_C7_lazy_creation_amended_witness :
    (∀ M, (MultipartWriter.new M).disk = [[]]) ∧
    ∃ w' n, MultipartWriter.write 2 (MultipartWriter.new 2) [5] = some (w', n) ∧
      (¬ (MultipartWriter.new 2).max_file_size - (MultipartWriter.new 2).file_size = 0 →
        w'.disk.length = (MultipartWriter.new 2).disk.length ∧
        w'.disk.dropLast = (MultipartWriter.new 2).disk.dropLast) ∧
      ((MultipartWriter.new 2).max_file_size - (MultipartWriter.new 2).file_size = 0 →
        w'.disk.length = (MultipartWriter.new 2).disk.length + 1 ∧
        w'.disk.dropLast = (MultipartWriter.new 2).disk) :=
  claim_C7_lazy_creation_amended (MultipartWriter.new 2) [5] (by decide) (by decide)

/-- C9: Writer termination: with maximum part size at least 1 a `write` call
with a non-empty buffer returns within self-recursion depth 1 (fuel 2 succeeds
and more fuel never changes the result), whereas with maximum part size 0 the
rollover recursion never reaches a part with positive capacity: every fuel is
exhausted without an answer. -/
theorem claim_C9_writer_termination :
    (∀ (w : MultipartWriter) (buf : List Byte), 1 ≤ w.max_file_size → buf ≠ [] →
      (MultipartWriter.write 2 w buf).isSome = true ∧
      ∀ f, 2 ≤ f → MultipartWriter.write f w buf = MultipartWriter.write 2 w buf) ∧
    ∀ (w : MultipartWriter) (buf : List Byte), w.max_file_size = 0 → buf ≠ [] →
      ∀ f, MultipartWriter.write f w buf = none := by
  constructor
  · intro w buf hM hbuf
    obtain ⟨w', n, hw, -, -, -, -⟩ := write_two_spec w buf hM
    exact ⟨by rw [hw]; rfl, fun f hf => write_fuel_eq w buf hM hf⟩
  · intro w buf h0 hbuf f
    exact write_zero_max w h0 buf f

/-- C9 witness: a full part rolls over and still answers with fuel 2, while a
zero maximum size makes the recursion spin out for (for instance) fuel 7. -/
theorem claim_C9_writer_termination_witness :
    (MultipartWriter.write 2 (MultipartWriter.mk 0 2 2 [[5, 5]]) [1]).isSome = true ∧
    MultipartWriter.write 7 (MultipartWriter.mk 0 0 0 [[]]) [1] = none :=
  ⟨(claim_C9_writer_termination.1 (MultipartWriter.mk 0 2 2 [[5, 5]]) [1]
      (by decide) (by decide)).1,
   claim_C9_writer_termination.2 (MultipartWriter.mk 0 0 0 [[]]) [1] rfl (by decide) 7⟩

/-- C2: Split transparency: pushing any byte sequence through the
`MultipartWriter` produces part files whose concatenation in numeric order is
exactly that sequence (what a single unbounded writer would have produced); the
`MultipartReader` reads back exactly that concatenation; hence the byte stream
delivered to the decoder is identical for any two maximum part sizes. -/
theorem claim_C2_split_transparency :
    (∀ (M : Nat) (B : List Byte), 1 ≤ M →
      ∃ w, (MultipartWriter.new M).writeAll B = some w ∧ w.disk.flatten = B) ∧
    (∀ (parts : List (List Byte)) (n : Nat), 1 ≤ n →
      MultipartReader.readAll parts n = parts.flatten) ∧
    ∀ (M₁ M₂ : Nat) (B : List Byte) (n : Nat) (w₁ w₂ : MultipartWriter),
      1 ≤ M₁ → 1 ≤ M₂ → 1 ≤ n →
      (MultipartWriter.new M₁).writeAll B = some w₁ →
      (MultipartWriter.new M₂).writeAll B = some w₂ →
      MultipartReader.readAll w₁.disk n = MultipartReader.readAll w₂.disk n := by
  have hwr : ∀ (M : Nat) (B : List Byte), 1 ≤ M →
      ∃ w, (MultipartWriter.new M).writeAll B = some w ∧ w.disk.flatten = B := by
    intro M B hM
    obtain ⟨w, hw, hflat, -⟩ := writeAll_spec (MultipartWriter.new M) B hM
    exact ⟨w, hw, by rw [hflat]; simp [MultipartWriter.new]⟩
  refine ⟨hwr, fun parts n hn => readAll_eq parts n hn, ?_⟩
  intro M₁ M₂ B n w₁ w₂ hM₁ hM₂ hn h₁ h₂
  obtain ⟨u₁, hu₁, hf₁⟩ := hwr M₁ B hM₁
  obtain ⟨u₂, hu₂, hf₂⟩ := hwr M₂ B hM₂
  rw [h₁] at hu₁
  rw [h₂] at hu₂
  obtain rfl : w₁ = u₁ := Option.some.inj hu₁
  obtain rfl : w₂ = u₂ := Option.some.inj hu₂
  rw [readAll_eq _ n hn, readAll_eq _ n hn, hf₁, hf₂]

/-- C2 witness: writing `[1, 2, 3]` with maximum part size 2 and reading the
parts `[[1, 2], [3]]` back, both reproducing the flat byte sequence. -/
theorem claim_C2_split_transparency_witness :
    (∃ w, (MultipartWriter.new 2).writeAll [1, 2, 3] = some w ∧ w.disk.flatten = [1, 2, 3]) ∧
    MultipartReader.readAll [[1, 2], [3]] 4 = [[1, 2], [3]].flatten :=
  ⟨claim_C2_split_transparency.1 2 [1, 2, 3] (by decide),
   claim_C2_split_transparency.2.1 [[1, 2], [3]] 4 (by decide)⟩

/-! ## Record wire-format round trip -/

theorem readU32_u32le (n : Nat) (rest : List Byte) (h : n < 4294967296) :
    readU32 (u32le n ++ rest) = some (n, rest) := by
  show readU32 (n % 256 :: n / 256 % 256 :: n / 65536 % 256 :: n / 16777216 % 256 :: rest) = _
  have harith : n % 256 + 256 * (n / 256 % 256) + 65536 * (n / 65536 % 256) +
      16777216 * (n / 16777216 % 256) = n := by omega
  simp only [readU32, harith]

theorem readU64_u64le (n : Nat) (rest : List Byte) (h : n < 18446744073709551616) :
    readU64 (u64le n ++ rest) = some (n, rest) := by
  show readU64 (n % 256 :: n / 256 % 256 :: n / 65536 % 256 :: n / 16777216 % 256 ::
    n / 4294967296 % 256 :: n / 1099511627776 % 256 :: n / 281474976710656 % 256 ::
    n / 72057594037927936 % 256 :: rest) = _
  have harith : n % 256 + 256 * (n / 256 % 256) + 65536 * (n / 65536 % 256) +
      16777216 * (n / 16777216 % 256) + 4294967296 * (n / 4294967296 % 256) +
      1099511627776 * (n / 1099511627776 % 256) +
      281474976710656 * (n / 281474976710656 % 256) +
      72057594037927936 * (n / 72057594037927936 % 256) = n := by omega
  simp only [readU64, harith]

theorem readBString_enc (name tail : List Byte) (h : name.length < 18446744073709551616) :
    readBString (u64le name.length ++ (name ++ tail)) = some (name, tail) := by
  unfold readBString
  simp only [readU64_u64le _ (name ++ tail) h]
  rw [if_pos (by simp), List.take_left, List.drop_left]

theorem u32le_length (n : Nat) : (u32le n).length = 4 := rfl

theorem u64le_length (n : Nat) : (u64le n).length = 8 := rfl

theorem deserializeOp_serializeOp (op : StorageOperation) (h : OpWf op) :
    deserializeOp (serializeOp op) = some op := by
  cases op with
  | EnterDirectory name =>
    have hlen : name.length < 18446744073709551616 := h
    have hshape : serializeOp (.EnterDirectory name) =
        u32le 0 ++ (u64le name.length ++ (name ++ [])) := by
      show u32le 0 ++ u64le name.length ++ name = _
      simp
    rw [hshape]
    unfold deserializeOp
    simp only [readU32_u32le 0 _ (by omega)]
    rw [if_pos trivial]
    simp only [readBString_enc name [] hlen]
  | LeaveDirectory => rfl
  | CreateFile name size =>
    obtain ⟨hname, hsize⟩ := h
    have hshape : serializeOp (.CreateFile name size) =
        u32le 2 ++ (u64le name.length ++ (name ++ (u64le size ++ []))) := by
      show u32le 2 ++ u64le name.length ++ name ++ u64le size = _
      simp
    rw [hshape]
    unfold deserializeOp
    simp only [readU32_u32le 2 _ (by omega), readBString_enc name (u64le size ++ []) hname,
      readU64_u64le size [] hsize]
    rfl

theorem serializeOp_append (op : StorageOperation) :
    serializeOp op ++ [] = serializeOp op := by simp

theorem readRecord_writeRecord (op : StorageOperation) (rest : List Byte) (h : OpWf op)
    (hlen : (serializeOp op).length < 4294967296) :
    readRecord (writeRecordBytes op ++ rest) = some (op, rest) := by
  unfold writeRecordBytes readRecord
  rw [List.append_assoc]
  simp only [readU32_u32le _ _ hlen]
  rw [if_pos (by simp), List.take_left, List.drop_left]
  simp only [deserializeOp_serializeOp op h]

theorem readU32_shrinks {s s₁ : List Byte} {v : Nat} (h : readU32 s = some (v, s₁)) :
    s₁.length + 4 = s.length := by
  match s, h with
  | b0 :: b1 :: b2 :: b3 :: rest, h =>
    have : rest = s₁ := congrArg Prod.snd (Option.some.inj h)
    subst this
    simp

theorem readRecord_shrinks {s : List Byte} {op : StorageOperation} {rest : List Byte}
    (h : readRecord s = some (op, rest)) : rest.length < s.length := by
  unfold readRecord at h
  cases hu : readU32 s with
  | none => rw [hu] at h; cases h
  | some v =>
    obtain ⟨len, s₁⟩ := v
    rw [hu] at h
    have h' : (if len ≤ s₁.length then
        match deserializeOp (s₁.take len) with
        | none => none
        | some op' => some (op', s₁.drop len)
      else none) = some (op, rest) := h
    have hs : s₁.length + 4 = s.length := readU32_shrinks hu
    by_cases hle : len ≤ s₁.length
    · rw [if_pos hle] at h'
      cases hd : deserializeOp (s₁.take len) with
      | none => rw [hd] at h'; cases h'
      | some op' =>
        rw [hd] at h'
        have : s₁.drop len = rest := congrArg Prod.snd (Option.some.inj h')
        subst this
        simp only [List.length_drop]
        omega
    · rw [if_neg hle] at h'
      cases h'

theorem readSpanF_spec : ∀ (fuel size : Nat) (s : List Byte), size ≤ fuel →
    readSpanF fuel s size =
      if s.length < size then none else some (s.take size, s.drop size) := by
  intro fuel
  induction fuel with
  | zero =>
    intro size s h
    obtain rfl : size = 0 := Nat.le_zero.mp h
    simp [readSpanF]
  | succ fuel ih =>
    intro size s h
    cases size with
    | zero => simp [readSpanF]
    | succ left =>
      show (let chunk := min (left + 1) (1024 * 1024);
        if s.length < chunk then none
        else match readSpanF fuel (s.drop chunk) (left + 1 - chunk) with
          | none => none
          | some (c, rest) => some (s.take chunk ++ c, rest)) = _
      set chunk := min (left + 1) (1024 * 1024) with hchunk
      have hc1 : 1 ≤ chunk := by
        rw [hchunk]
        exact Nat.le_min.mpr ⟨by omega, by omega⟩
      have hcle : chunk ≤ left + 1 := by
        rw [hchunk]
        exact Nat.min_le_left _ _
      by_cases hs : s.length < chunk
      · rw [if_pos hs, if_pos (by omega)]
      · rw [if_neg hs, ih (left + 1 - chunk) (s.drop chunk) (by omega)]
        by_cases hs2 : s.length < left + 1
        · rw [if_pos (by simp only [List.length_drop]; omega), if_pos hs2]
        · rw [if_neg (by simp only [List.length_drop]; omega), if_neg hs2]
          have htake : s.take chunk ++ (s.drop chunk).take (left + 1 - chunk) =
              s.take (left + 1) := by
            rw [← List.take_add]
            congr 1
            omega
          have hdrop : (s.drop chunk).drop (left + 1 - chunk) = s.drop (left + 1) := by
            rw [List.drop_drop]
            congr 1
            omega
          show some (s.take chunk ++ (s.drop chunk).take (left + 1 - chunk),
              (s.drop chunk).drop (left + 1 - chunk)) =
            some (s.take (left + 1), s.drop (left + 1))
          rw [htake, hdrop]

theorem mkdirs_of_subset : ∀ (qs : List Path) (fs : Fs), (∀ q ∈ qs, q ∈ fs.dirs) →
    mkdirs qs fs = .ok fs
  | [], _, _ => rfl
  | q :: qs, fs, h => by
    unfold mkdirs
    rw [if_pos (h q (by simp))]
    exact mkdirs_of_subset qs fs fun p hp => h p (by simp [hp])

theorem createDirAll_of_prefixesIn {base : Path} {fs : Fs} (h : PrefixesIn base fs) :
    createDirAll base fs = .ok fs :=
  mkdirs_of_subset _ fs h

theorem mkdirs_ok : ∀ (qs : List Path) (fs : Fs), (∀ q ∈ qs, q ∉ fs.fileNames) →
    ∃ fs', mkdirs qs fs = .ok fs' ∧ fs'.files = fs.files ∧
      ∀ q, q ∈ fs'.dirs ↔ q ∈ fs.dirs ∨ q ∈ qs := by
  intro qs
  induction qs with
  | nil =>
    intro fs h
    exact ⟨fs, rfl, rfl, by simp⟩
  | cons q qs ih =>
    intro fs h
    by_cases hq : q ∈ fs.dirs
    · obtain ⟨fs', h1, h2, h3⟩ := ih fs fun p hp => h p (by simp [hp])
      refine ⟨fs', ?_, h2, ?_⟩
      · unfold mkdirs
        rw [if_pos hq]
        exact h1
      · intro p
        rw [h3 p]
        simp only [List.mem_cons]
        constructor
        · rintro (hp | hp)
          · exact Or.inl hp
          · exact Or.inr (Or.inr hp)
        · rintro (hp | rfl | hp)
          · exact Or.inl hp
          · exact Or.inl hq
          · exact Or.inr hp
    · have hqf : q ∉ fs.fileNames := h q (by simp)
      obtain ⟨fs', h1, h2, h3⟩ := ih { fs with dirs := fs.dirs ++ [q] }
        (fun p hp => h p (by simp [hp]))
      refine ⟨fs', ?_, h2, ?_⟩
      · unfold mkdirs
        rw [if_neg hq, if_neg hqf]
        exact h1
      · intro p
        rw [h3 p]
        show p ∈ fs.dirs ++ [q] ∨ p ∈ qs ↔ p ∈ fs.dirs ∨ p ∈ q :: qs
        simp only [List.mem_append, List.mem_singleton, List.mem_cons]
        tauto

theorem mkdirs_mem : ∀ (qs : List Path) (fs fs' : Fs), mkdirs qs fs = .ok fs' →
    (∀ q ∈ fs.dirs, q ∈ fs'.dirs) ∧ ∀ q ∈ qs, q ∈ fs'.dirs := by
  intro qs
  induction qs with
  | nil =>
    intro fs fs' h
    obtain rfl : fs = fs' := Except.ok.inj h
    exact ⟨fun q hq => hq, by simp⟩
  | cons q qs ih =>
    intro fs fs' h
    unfold mkdirs at h
    by_cases hq : q ∈ fs.dirs
    · rw [if_pos hq] at h
      obtain ⟨h1, h2⟩ := ih fs fs' h
      refine ⟨h1, fun p hp => ?_⟩
      rcases List.mem_cons.mp hp with rfl | hp
      · exact h1 p hq
      · exact h2 p hp
    · rw [if_neg hq] at h
      by_cases hqf : q ∈ fs.fileNames
      · rw [if_pos hqf] at h
        cases h
      · rw [if_neg hqf] at h
        obtain ⟨h1, h2⟩ := ih _ fs' h
        constructor
        · intro p hp
          exact h1 p (by simp [hp])
        · intro p hp
          rcases List.mem_cons.mp hp with rfl | hp
          · exact h1 p (by simp)
          · exact h2 p hp

theorem readSpanF_le {fuel size : Nat} : ∀ {s c rest : List Byte},
    readSpanF fuel s size = some (c, rest) → rest.length ≤ s.length := by
  induction fuel generalizing size with
  | zero =>
    intro s c rest h
    cases size with
    | zero =>
      have hsr : s = rest := congrArg Prod.snd (Option.some.inj h)
      exact Nat.le_of_eq (congrArg List.length hsr.symm)
    | succ left => cases h
  | succ fuel ih =>
    intro s c rest h
    cases size with
    | zero =>
      have hsr : s = rest := congrArg Prod.snd (Option.some.inj h)
      exact Nat.le_of_eq (congrArg List.length hsr.symm)
    | succ left =>
      revert h
      show (let chunk := min (left + 1) (1024 * 1024);
        if s.length < chunk then none
        else match readSpanF fuel (s.drop chunk) (left + 1 - chunk) with
          | none => none
          | some (c, rest) => some (s.take chunk ++ c, rest)) = some (c, rest) →
        rest.length ≤ s.length
      intro h
      by_cases hs : s.length < min (left + 1) (1024 * 1024)
      · rw [if_pos hs] at h
        cases h
      · rw [if_neg hs] at h
        cases hrec : readSpanF fuel (s.drop (min (left + 1) (1024 * 1024)))
            (left + 1 - min (left + 1) (1024 * 1024)) with
        | none => rw [hrec] at h; cases h
        | some pr =>
          obtain ⟨c', rest'⟩ := pr
          rw [hrec] at h
          have hr : rest' = rest := congrArg Prod.snd (Option.some.inj h)
          subst hr
          have := ih hrec
          simp only [List.length_drop] at this
          omega

/-! ## Step equations for the restorer -/

theorem interpretF_irrel : ∀ (f₁ f₂ : Nat) (s : List Byte) (base : Path) (fs : Fs),
    s.length < f₁ → s.length < f₂ → interpretF f₁ s base fs = interpretF f₂ s base fs := by
  intro f₁
  induction f₁ with
  | zero => intro f₂ s base fs h1; omega
  | succ f₁ ih =>
    intro f₂ s base fs h1 h2
    obtain ⟨g, rfl⟩ : ∃ g, f₂ = g + 1 := ⟨f₂ - 1, by omega⟩
    show interpretF (f₁ + 1) s base fs = interpretF (g + 1) s base fs
    unfold interpretF
    cases hmk : createDirAll base fs with
    | error e => rfl
    | ok fs₁ =>
      simp only []
      cases hrec : readRecord s with
      | none => rfl
      | some pr =>
        obtain ⟨op, rest⟩ := pr
        simp only []
        have hrest : rest.length < s.length := readRecord_shrinks hrec
        cases op with
        | EnterDirectory name =>
          simp only []
          cases hcd : createDir (base ++ [name]) fs₁ with
          | error e => rfl
          | ok fs₂ =>
            simp only []
            exact ih g rest _ fs₂ (by omega) (by omega)
        | LeaveDirectory => exact ih g rest _ fs₁ (by omega) (by omega)
        | CreateFile name size =>
          simp only []
          by_cases hok : (base ++ [name]) ∈ fs₁.dirs ∨
              ((base ++ [name]).dropLast ≠ [] ∧ (base ++ [name]).dropLast ∉ fs₁.dirs)
          · rw [if_pos hok, if_pos hok]
          · rw [if_neg hok, if_neg hok]
            cases hsp : readSpanF size rest size with
            | none => rfl
            | some pr2 =>
              obtain ⟨content, rest₂⟩ := pr2
              simp only []
              have hr2 : rest₂.length ≤ rest.length := readSpanF_le hsp
              exact ih g rest₂ _ _ (by omega) (by omega)

theorem interpret_step_stop {s : List Byte} {base : Path} {fs fs₁ : Fs}
    (hmk : createDirAll base fs = .ok fs₁) (hrec : readRecord s = none) :
    interpret s base fs = .ok fs₁ := by
  show interpretF (s.length + 1) s base fs = _
  unfold interpretF
  simp only [hmk, hrec]

theorem interpret_step_enter {s : List Byte} {base : Path} {fs fs₁ fs₂ : Fs}
    {name : List Byte} {rest : List Byte}
    (hmk : createDirAll base fs = .ok fs₁)
    (hrec : readRecord s = some (.EnterDirectory name, rest))
    (hcd : createDir (base ++ [name]) fs₁ = .ok fs₂) :
    interpret s base fs = interpret rest (base ++ [name]) fs₂ := by
  have hrest : rest.length < s.length := readRecord_shrinks hrec
  show interpretF (s.length + 1) s base fs = _
  unfold interpretF
  simp only [hmk, hrec, hcd]
  exact interpretF_irrel s.length (rest.length + 1) rest _ fs₂ (by omega) (by omega)

theorem interpret_step_enter_error {s : List Byte} {base : Path} {fs fs₁ : Fs}
    {name : List Byte} {rest : List Byte}
    (hmk : createDirAll base fs = .ok fs₁)
    (hrec : readRecord s = some (.EnterDirectory name, rest))
    (hcd : createDir (base ++ [name]) fs₁ = .error ()) :
    interpret s base fs = .error () := by
  show interpretF (s.length + 1) s base fs = _
  unfold interpretF
  simp only [hmk, hrec, hcd]

theorem interpret_step_leave {s : List Byte} {base : Path} {fs fs₁ : Fs}
    {rest : List Byte}
    (hmk : createDirAll base fs = .ok fs₁)
    (hrec : readRecord s = some (.LeaveDirectory, rest)) :
    interpret s base fs = interpret rest base.dropLast fs₁ := by
  have hrest : rest.length < s.length := readRecord_shrinks hrec
  show interpretF (s.length + 1) s base fs = _
  unfold interpretF
  simp only [hmk, hrec]
  exact interpretF_irrel s.length (rest.length + 1) rest _ fs₁ (by omega) (by omega)

theorem interpret_step_createfile {s : List Byte} {base : Path} {fs fs₁ : Fs}
    {name : List Byte} {size : Nat} {rest : List Byte}
    (hmk : createDirAll base fs = .ok fs₁)
    (hrec : readRecord s = some (.CreateFile name size, rest))
    (hok : ¬ ((base ++ [name]) ∈ fs₁.dirs ∨
      ((base ++ [name]).dropLast ≠ [] ∧ (base ++ [name]).dropLast ∉ fs₁.dirs)))
    (hlen : size ≤ rest.length) :
    interpret s base fs =
      interpret (rest.drop size) base (setFile (base ++ [name]) (rest.take size) fs₁) := by
  have hrest : rest.length < s.length := readRecord_shrinks hrec
  show interpretF (s.length + 1) s base fs = _
  unfold interpretF
  simp only [hmk, hrec]
  rw [if_neg hok, readSpanF_spec size size rest le_rfl, if_neg (by omega)]
  have hdl : (rest.drop size).length ≤ rest.length := by
    simp only [List.length_drop]
    omega
  exact interpretF_irrel s.length ((rest.drop size).length + 1) (rest.drop size) _ _
    (by omega) (by omega)

theorem interpret_error_span {s : List Byte} {base : Path} {fs fs₁ : Fs}
    {name : List Byte} {size : Nat} {rest : List Byte}
    (hmk : createDirAll base fs = .ok fs₁)
    (hrec : readRecord s = some (.CreateFile name size, rest))
    (hshort : rest.length < size) :
    interpret s base fs = .error () := by
  show interpretF (s.length + 1) s base fs = _
  unfold interpretF
  simp only [hmk, hrec]
  by_cases hok : (base ++ [name]) ∈ fs₁.dirs ∨
      ((base ++ [name]).dropLast ≠ [] ∧ (base ++ [name]).dropLast ∉ fs₁.dirs)
  · rw [if_pos hok]
  · rw [if_neg hok, readSpanF_spec size size rest le_rfl, if_pos hshort]

theorem interpret_skip_mkdirs {s : List Byte} {base : Path} {fs fs₁ : Fs}
    (hmk : createDirAll base fs = .ok fs₁) (hpre : PrefixesIn base fs₁) :
    interpret s base fs = interpret s base fs₁ := by
  show interpretF (s.length + 1) s base fs = interpretF (s.length + 1) s base fs₁
  unfold interpretF
  simp only [hmk, createDirAll_of_prefixesIn hpre]

/-! ## Ancestor-path lemmas -/

theorem self_mem_prefixesNE (p : Path) (h : p ≠ []) : p ∈ prefixesNE p := by
  have hlen : 1 ≤ p.length := by
    cases p with
    | nil => exact absurd rfl h
    | cons a t => simp
  unfold prefixesNE
  refine List.mem_map.mpr ⟨p.length - 1, List.mem_range.mpr (by omega), ?_⟩
  rw [show p.length - 1 + 1 = p.length by omega, List.take_length]

theorem mem_prefixesNE_length {q p : Path} (h : q ∈ prefixesNE p) :
    q.length ≤ p.length := by
  unfold prefixesNE at h
  obtain ⟨i, hi, rfl⟩ := List.mem_map.mp h
  simp only [List.length_take]
  omega

theorem prefixesNE_concat (base : Path) (n : List Byte) :
    prefixesNE (base ++ [n]) = prefixesNE base ++ [base ++ [n]] := by
  unfold prefixesNE
  rw [show (base ++ [n]).length = base.length + 1 by simp, List.range_succ, List.map_append]
  congr 1
  · apply List.map_congr_left
    intro i hi
    have hi' : i < base.length := List.mem_range.mp hi
    exact List.take_append_of_le_length (by omega)
  · simp only [List.map_cons, List.map_nil]
    congr 1
    rw [show base.length + 1 = (base ++ [n]).length by simp, List.take_length]

/-! ## Claims about the restorer's error policy -/

/-- C6: Restore error policy: whenever reading the next record fails — for any
reason, end-of-stream, truncated length prefix, or a payload that does not
deserialize, all of which are `readRecord = none` — the interpret loop stops
with success; whereas when a `CreateFile` record declares more content bytes
than the stream still holds, the span read fails and `interpret` returns the
error to its caller. -/
theorem claim_C6_restore_error_policy :
    (∀ (s : List Byte) (base : Path) (fs fs₁ : Fs),
      createDirAll base fs = .ok fs₁ → readRecord s = none →
      interpret s base fs = .ok fs₁) ∧
    ∀ (s rest : List Byte) (base : Path) (fs fs₁ : Fs) (name : List Byte) (size : Nat),
      createDirAll base fs = .ok fs₁ →
      readRecord s = some (.CreateFile name size, rest) → rest.length < size →
      interpret s base fs = .error () :=
  ⟨fun _ _ _ _ hmk hrec => interpret_step_stop hmk hrec,
   fun _ _ _ _ _ _ _ hmk hrec hshort => interpret_error_span hmk hrec hshort⟩

/-- C6 witness: the empty stream restores successfully (creating the
destination root), and a `CreateFile` record declaring 5 bytes followed by
only 2 bytes makes `interpret` fail. -/
theorem claim_C6_restore_error_policy_witness :
    interpret [] [[100]] Fs.empty = .ok (Fs.mk [[[100]]] []) ∧
    interpret (writeRecordBytes (.CreateFile [97] 5) ++ [1, 2]) [[100]] Fs.empty =
      .error () :=
  ⟨claim_C6_restore_error_policy.1 [] [[100]] Fs.empty (Fs.mk [[[100]]] []) rfl rfl,
   claim_C6_restore_error_policy.2 (writeRecordBytes (.CreateFile [97] 5) ++ [1, 2])
     [1, 2] [[100]] Fs.empty (Fs.mk [[[100]]] []) [97] 5 rfl rfl (by decide)⟩

/-- C10: Restore on an empty or unreadable stream: `interpret` runs
`create_dir_all` on the destination root before attempting to read any record,
so when the very first record read fails the destination root (and its
ancestors) exists on disk and `interpret` returns success. -/
theorem claim_C10_restore_creates_root (s : List Byte) (base : Path) (fs fs₁ : Fs)
    (hbase : base ≠ []) (hmk : createDirAll base fs = .ok fs₁)
    (hrec : readRecord s = none) :
    interpret s base fs = .ok fs₁ ∧ base ∈ fs₁.dirs :=
  ⟨interpret_step_stop hmk hrec,
   (mkdirs_mem (prefixesNE base) fs fs₁ hmk).2 base (self_mem_prefixesNE base hbase)⟩

/-- C10 witness: restoring the unreadable stream `[9, 9]` into `Fs.empty` at
root `[[100]]` creates that root and reports success. -/
theorem claim_C10_restore_creates_root_witness :
    interpret [9, 9] [[100]] Fs.empty = .ok (Fs.mk [[[100]]] []) ∧
    [[100]] ∈ (Fs.mk [[[100]]] []).dirs :=
  claim_C10_restore_creates_root [9, 9] [[100]] Fs.empty (Fs.mk [[[100]]] [])
    (by decide) rfl rfl

/-! ## The effect of materialising a tree on the modelled disk -/

theorem fileNames_setFile (p : Path) (c : List Byte) (fs : Fs) (q : Path) :
    q ∈ (setFile p c fs).fileNames ↔ q ∈ fs.fileNames ∨ q = p := by
  unfold setFile Fs.fileNames
  show q ∈ ((fs.files.filter fun pr => pr.1 ≠ p) ++ [(p, c)]).map Prod.fst ↔ _
  simp only [List.map_append, List.mem_append, List.map_cons, List.map_nil,
    List.mem_singleton, List.mem_map, List.mem_filter, decide_eq_true_eq]
  constructor
  · rintro (⟨pr, ⟨hpr, -⟩, rfl⟩ | rfl)
    · exact Or.inl ⟨pr, hpr, rfl⟩
    · exact Or.inr rfl
  · rintro (⟨pr, hpr, rfl⟩ | rfl)
    · by_cases hq : pr.1 = p
      · exact Or.inr hq
      · exact Or.inl ⟨pr, ⟨hpr, hq⟩, rfl⟩
    · exact Or.inr rfl

mutual

theorem applyEntry_dirs : ∀ (e : Entry) (base : Path) (fs : Fs),
    (applyEntry base e fs).dirs = fs.dirs ++ dirPathsE base e
  | .file n c, base, fs => by
    show (setFile (base ++ [n]) c fs).dirs = fs.dirs ++ dirPathsE base (.file n c)
    show fs.dirs = fs.dirs ++ []
    simp

  | .dir n es, base, fs => by
    show (applyEntries (base ++ [n]) es { fs with dirs := fs.dirs ++ [base ++ [n]] }).dirs = _
    rw [applyEntries_dirs es (base ++ [n]) _]
    show fs.dirs ++ [base ++ [n]] ++ dirPathsEs (base ++ [n]) es =
      fs.dirs ++ ((base ++ [n]) :: dirPathsEs (base ++ [n]) es)
    simp

theorem applyEntries_dirs : ∀ (es : List Entry) (base : Path) (fs : Fs),
    (applyEntries base es fs).dirs = fs.dirs ++ dirPathsEs base es
  | [], base, fs => by
    show fs.dirs = fs.dirs ++ dirPathsEs base []
    show fs.dirs = fs.dirs ++ []
    simp

  | e :: es, base, fs => by
    show (applyEntries base es (applyEntry base e fs)).dirs = _
    rw [applyEntries_dirs es base _, applyEntry_dirs e base fs]
    show fs.dirs ++ dirPathsE base e ++ dirPathsEs base es =
      fs.dirs ++ (dirPathsE base e ++ dirPathsEs base es)
    simp

end

mutual

theorem applyEntry_fileNames : ∀ (e : Entry) (base : Path) (fs : Fs) (q : Path),
    q ∈ (applyEntry base e fs).fileNames ↔
      q ∈ fs.fileNames ∨ q ∈ (filePairsE base e).map Prod.fst
  | .file n c, base, fs, q => by
    show q ∈ (setFile (base ++ [n]) c fs).fileNames ↔ _
    rw [fileNames_setFile]
    show _ ↔ q ∈ fs.fileNames ∨ q ∈ [(base ++ [n], c)].map Prod.fst
    simp

  | .dir n es, base, fs, q => by
    show q ∈ (applyEntries (base ++ [n]) es
      { fs with dirs := fs.dirs ++ [base ++ [n]] }).fileNames ↔ _
    rw [applyEntries_fileNames es (base ++ [n]) _ q]
    show q ∈ fs.fileNames ∨ q ∈ (filePairsEs (base ++ [n]) es).map Prod.fst ↔
      q ∈ fs.fileNames ∨ q ∈ (filePairsE base (.dir n es)).map Prod.fst
    show _ ↔ q ∈ fs.fileNames ∨ q ∈ (filePairsEs (base ++ [n]) es).map Prod.fst
    exact Iff.rfl

theorem applyEntries_fileNames : ∀ (es : List Entry) (base : Path) (fs : Fs) (q : Path),
    q ∈ (applyEntries base es fs).fileNames ↔
      q ∈ fs.fileNames ∨ q ∈ (filePairsEs base es).map Prod.fst
  | [], base, fs, q => by
    show q ∈ fs.fileNames ↔ q ∈ fs.fileNames ∨ q ∈ ([] : List (Path × List Byte)).map Prod.fst
    simp

  | e :: es, base, fs, q => by
    show q ∈ (applyEntries base es (applyEntry base e fs)).fileNames ↔
      _ ∨ q ∈ (filePairsE base e ++ filePairsEs base es).map Prod.fst
    rw [applyEntries_fileNames es base _ q, applyEntry_fileNames e base fs q]
    simp only [List.map_append, List.mem_append]
    tauto

end

mutual

theorem mem_entryPaths_iff : ∀ (e : Entry) (base : Path) (q : Path),
    q ∈ entryPaths base e ↔
      q ∈ dirPathsE base e ∨ q ∈ (filePairsE base e).map Prod.fst
  | .file n c, base, q => by
    show q ∈ [base ++ [n]] ↔ q ∈ ([] : List Path) ∨ q ∈ [(base ++ [n], c)].map Prod.fst
    simp

  | .dir n es, base, q => by
    show q ∈ (base ++ [n]) :: entriesPaths (base ++ [n]) es ↔
      q ∈ (base ++ [n]) :: dirPathsEs (base ++ [n]) es ∨
        q ∈ (filePairsEs (base ++ [n]) es).map Prod.fst
    rw [List.mem_cons, List.mem_cons, mem_entriesPaths_iff es (base ++ [n]) q]
    tauto

theorem mem_entriesPaths_iff : ∀ (es : List Entry) (base : Path) (q : Path),
    q ∈ entriesPaths base es ↔
      q ∈ dirPathsEs base es ∨ q ∈ (filePairsEs base es).map Prod.fst
  | [], base, q => by
    show q ∈ ([] : List Path) ↔ q ∈ ([] : List Path) ∨ q ∈ ([] : List (Path × List Byte)).map Prod.fst
    simp

  | e :: es, base, q => by
    show q ∈ entryPaths base e ++ entriesPaths base es ↔
      q ∈ dirPathsE base e ++ dirPathsEs base es ∨
        q ∈ (filePairsE base e ++ filePairsEs base es).map Prod.fst
    rw [List.mem_append, List.mem_append, mem_entryPaths_iff e base q,
      mem_entriesPaths_iff es base q]
    simp only [List.map_append, List.mem_append]
    tauto

end

theorem occupied_applyEntry (e : Entry) (base : Path) (fs : Fs) (q : Path) :
    q ∈ occupied (applyEntry base e fs) ↔ q ∈ occupied fs ∨ q ∈ entryPaths base e := by
  unfold occupied
  rw [List.mem_append, List.mem_append, applyEntry_dirs, applyEntry_fileNames,
    List.mem_append, mem_entryPaths_iff]
  tauto

mutual

theorem filePairs_fst_sublist : ∀ (e : Entry) (base : Path),
    ((filePairsE base e).map Prod.fst).Sublist (entryPaths base e)
  | .file n c, base => by
    show ([(base ++ [n], c)].map Prod.fst).Sublist [base ++ [n]]
    simp

  | .dir n es, base => by
    show ((filePairsEs (base ++ [n]) es).map Prod.fst).Sublist
      ((base ++ [n]) :: entriesPaths (base ++ [n]) es)
    exact (filePairsEs_fst_sublist es (base ++ [n])).cons _

theorem filePairsEs_fst_sublist : ∀ (es : List Entry) (base : Path),
    ((filePairsEs base es).map Prod.fst).Sublist (entriesPaths base es)
  | [], base => by
    show (([] : List (Path × List Byte)).map Prod.fst).Sublist []
    simp

  | e :: es, base => by
    show ((filePairsE base e ++ filePairsEs base es).map Prod.fst).Sublist
      (entryPaths base e ++ entriesPaths base es)
    rw [List.map_append]
    exact (filePairs_fst_sublist e base).append (filePairsEs_fst_sublist es base)

end

mutual

theorem applyEntry_files : ∀ (e : Entry) (base : Path) (fs : Fs),
    (∀ p ∈ (filePairsE base e).map Prod.fst, p ∉ fs.fileNames) →
    ((filePairsE base e).map Prod.fst).Nodup →
    (applyEntry base e fs).files = fs.files ++ filePairsE base e
  | .file n c, base, fs, hfresh, _ => by
    show (setFile (base ++ [n]) c fs).files = fs.files ++ [(base ++ [n], c)]
    unfold setFile
    show (fs.files.filter fun pr => pr.1 ≠ base ++ [n]) ++ [(base ++ [n], c)] = _
    congr 1
    apply List.filter_eq_self.mpr
    intro pr hpr
    have hne : pr.1 ≠ base ++ [n] := by
      intro hq
      exact hfresh (base ++ [n]) (by show _ ∈ [(base ++ [n], c)].map Prod.fst; simp)
        (hq ▸ List.mem_map_of_mem Prod.fst hpr)
    simpa using hne

  | .dir n es, base, fs, hfresh, hnd => by
    show (applyEntries (base ++ [n]) es { fs with dirs := fs.dirs ++ [base ++ [n]] }).files =
      fs.files ++ filePairsEs (base ++ [n]) es
    exact applyEntries_files es (base ++ [n]) _ hfresh hnd

theorem applyEntries_files : ∀ (es : List Entry) (base : Path) (fs : Fs),
    (∀ p ∈ (filePairsEs base es).map Prod.fst, p ∉ fs.fileNames) →
    ((filePairsEs base es).map Prod.fst).Nodup →
    (applyEntries base es fs).files = fs.files ++ filePairsEs base es
  | [], base, fs, _, _ => by
    show fs.files = fs.files ++ ([] : List (Path × List Byte))
    simp

  | e :: es, base, fs, hfresh, hnd => by
    show (applyEntries base es (applyEntry base e fs)).files =
      fs.files ++ (filePairsE base e ++ filePairsEs base es)
    have hexp : filePairsEs base (e :: es) = filePairsE base e ++ filePairsEs base es := rfl
    rw [hexp, List.map_append] at hfresh hnd
    have hfresh' : ∀ p ∈ (filePairsE base e).map Prod.fst, p ∉ fs.fileNames := by
      intro p hp
      exact hfresh p (List.mem_append.mpr (Or.inl hp))
    obtain ⟨hnd1, hnd2, hdisj⟩ := List.nodup_append.mp hnd
    rw [applyEntries_files es base _ ?_ hnd2, applyEntry_files e base fs hfresh' hnd1]
    · simp
    · intro p hp
      rw [applyEntry_fileNames]
      rintro (hp' | hp')
      · exact hfresh p (List.mem_append.mpr (Or.inr hp)) hp'
      · exact hdisj hp' hp

end

/-! ## Distinctness of the created paths -/

theorem take_concat_self (base : Path) (n : List Byte) :
    (base ++ [n]).take (base.length + 1) = base ++ [n] := by
  rw [show base.length + 1 = (base ++ [n]).length by simp, List.take_length]

mutual

theorem entryPaths_take : ∀ (e : Entry) (base : Path) (p : Path), p ∈ entryPaths base e →
    p.take (base.length + 1) = base ++ [entryName e] ∧ base.length + 1 ≤ p.length
  | .file n c, base, p, hp => by
    have hp' : p = base ++ [n] := by
      have : p ∈ [base ++ [n]] := hp
      simpa using this
    subst hp'
    exact ⟨take_concat_self base n, by simp⟩

  | .dir n es, base, p, hp => by
    have hp' : p = base ++ [n] ∨ p ∈ entriesPaths (base ++ [n]) es := List.mem_cons.mp hp
    rcases hp' with rfl | hp'
    · exact ⟨take_concat_self base n, by simp⟩
    · obtain ⟨e', -, htake, hlen⟩ := entriesPaths_take es (base ++ [n]) p hp'
      have hlen' : (base ++ [n]).length = base.length + 1 := by simp
      rw [hlen'] at htake hlen
      constructor
      · have h1 : p.take (base.length + 1) =
            (p.take (base.length + 1 + 1)).take (base.length + 1) := by
          rw [List.take_take]
          congr 1
          omega
        rw [h1, htake]
        show ((base ++ [n]) ++ [entryName e']).take (base.length + 1) =
          base ++ [entryName (Entry.dir n es)]
        rw [List.take_append_of_le_length (by simp), take_concat_self base n]
        rfl
      · omega

theorem entriesPaths_take : ∀ (es : List Entry) (base : Path) (p : Path),
    p ∈ entriesPaths base es →
    ∃ e ∈ es, p.take (base.length + 1) = base ++ [entryName e] ∧ base.length + 1 ≤ p.length
  | [], base, p, hp => by
    have : p ∈ ([] : List Path) := hp
    simp at this

  | e :: es, base, p, hp => by
    have hp' : p ∈ entryPaths base e ∨ p ∈ entriesPaths base es := by
      have : p ∈ entryPaths base e ++ entriesPaths base es := hp
      exact List.mem_append.mp this
    rcases hp' with hp' | hp'
    · obtain ⟨htake, hlen⟩ := entryPaths_take e base p hp'
      exact ⟨e, by simp, htake, hlen⟩
    · obtain ⟨e', he', htake, hlen⟩ := entriesPaths_take es base p hp'
      exact ⟨e', by simp [he'], htake, hlen⟩

end

mutual

theorem entryPaths_nodup : ∀ (e : Entry) (base : Path), WfEntry e →
    (entryPaths base e).Nodup
  | .file n c, base, _ => by
    show ([base ++ [n]] : List Path).Nodup
    simp

  | .dir n es, base, h => by
    obtain ⟨-, hnames, hwf⟩ := h
    show ((base ++ [n]) :: entriesPaths (base ++ [n]) es).Nodup
    refine List.nodup_cons.mpr ⟨?_, entriesPaths_nodup es (base ++ [n]) hwf hnames⟩
    intro hmem
    obtain ⟨e', -, -, hlen⟩ := entriesPaths_take es (base ++ [n]) _ hmem
    simp at hlen

theorem entriesPaths_nodup : ∀ (es : List Entry) (base : Path), WfEntries es →
    (es.map entryName).Nodup → (entriesPaths base es).Nodup
  | [], base, _, _ => by
    show ([] : List Path).Nodup
    simp

  | e :: es, base, hwf, hnames => by
    obtain ⟨hwfe, hwfes⟩ := hwf
    rw [List.map_cons] at hnames
    obtain ⟨hne, hnames'⟩ := List.nodup_cons.mp hnames
    show (entryPaths base e ++ entriesPaths base es).Nodup
    refine (entryPaths_nodup e base hwfe).append
      (entriesPaths_nodup es base hwfes hnames') ?_
    intro p hp1 hp2
    obtain ⟨ht1, -⟩ := entryPaths_take e base p hp1
    obtain ⟨e', he', ht2, -⟩ := entriesPaths_take es base p hp2
    rw [ht1] at ht2
    have hname : entryName e = entryName e' := by
      have := List.append_cancel_left ht2
      simpa using this
    exact hne (hname ▸ List.mem_map_of_mem entryName he')

end

/-! ## The restorer replays an encoded tree exactly -/

theorem serializeOp_enter_length (n : List Byte) :
    (serializeOp (.EnterDirectory n)).length = n.length + 12 := by
  show (u32le 0 ++ u64le n.length ++ n).length = _
  simp only [u32le, u64le, List.length_append, List.length_cons, List.length_nil]
  omega

theorem serializeOp_leave_length : (serializeOp .LeaveDirectory).length = 4 := rfl

theorem serializeOp_create_length (n : List Byte) (size : Nat) :
    (serializeOp (.CreateFile n size)).length = n.length + 20 := by
  show (u32le 2 ++ u64le n.length ++ n ++ u64le size).length = _
  simp only [u32le, u64le, List.length_append, List.length_cons, List.length_nil]
  omega

theorem occupied_insert_dir (fs : Fs) (p q : Path) :
    q ∈ occupied { fs with dirs := fs.dirs ++ [p] } ↔ q ∈ occupied fs ∨ q = p := by
  unfold occupied Fs.fileNames
  show q ∈ fs.dirs ++ [p] ++ fs.files.map Prod.fst ↔
    q ∈ fs.dirs ++ fs.files.map Prod.fst ∨ q = p
  simp only [List.mem_append, List.mem_singleton]
  tauto

theorem prefixesIn_insert {base : Path} {fs : Fs} (n : List Byte) (h : PrefixesIn base fs) :
    PrefixesIn (base ++ [n]) { fs with dirs := fs.dirs ++ [base ++ [n]] } := by
  intro q hq
  rw [prefixesNE_concat] at hq
  show q ∈ fs.dirs ++ [base ++ [n]]
  rcases List.mem_append.mp hq with hq | hq
  · exact List.mem_append.mpr (Or.inl (h q hq))
  · exact List.mem_append.mpr (Or.inr hq)

theorem prefixesIn_applyEntries {base base' : Path} {es : List Entry} {fs : Fs}
    (h : PrefixesIn base fs) : PrefixesIn base (applyEntries base' es fs) := by
  intro q hq
  rw [applyEntries_dirs]
  exact List.mem_append.mpr (Or.inl (h q hq))

theorem parent_ok {base : Path} {fs : Fs} (n : List Byte) (hpre : PrefixesIn base fs) :
    (base ++ [n]).dropLast = [] ∨ (base ++ [n]).dropLast ∈ fs.dirs := by
  rw [List.dropLast_concat]
  by_cases hb : base = []
  · exact Or.inl hb
  · exact Or.inr (hpre base (self_mem_prefixesNE base hb))

theorem createDir_ok {p : Path} {fs : Fs} (h1 : p ∉ fs.dirs) (h2 : p ∉ fs.fileNames)
    (h3 : p.dropLast = [] ∨ p.dropLast ∈ fs.dirs) :
    createDir p fs = .ok { fs with dirs := fs.dirs ++ [p] } := by
  have hcond : ¬ (p ∈ fs.dirs ∨ p ∈ fs.fileNames ∨
      (p.dropLast ≠ [] ∧ p.dropLast ∉ fs.dirs)) := by
    rintro (h | h | ⟨hne, hnotin⟩)
    · exact h1 h
    · exact h2 h
    · rcases h3 with h | h
      · exact hne h
      · exact hnotin h
  unfold createDir
  rw [if_neg hcond]

mutual

theorem interpret_encodeEntry : ∀ (e : Entry) (base : Path) (fs : Fs) (rest : List Byte),
    WfEntry e → FreshList fs (entryPaths base e) → PrefixesIn base fs →
    interpret (encodeEntry e ++ rest) base fs = interpret rest base (applyEntry base e fs)
  | .file n c, base, fs, rest, hwf, hfresh, hpre => by
    obtain ⟨hn, hc⟩ := hwf
    have hp : (base ++ [n]) ∈ entryPaths base (Entry.file n c) := by
      show _ ∈ [base ++ [n]]
      simp
    have hoccp := hfresh.2 _ hp
    have hocc₁ : (base ++ [n]) ∉ fs.dirs := fun h => hoccp (List.mem_append.mpr (Or.inl h))
    have hmk : createDirAll base fs = .ok fs := createDirAll_of_prefixesIn hpre
    have hstream : encodeEntry (Entry.file n c) ++ rest =
        writeRecordBytes (.CreateFile n c.length) ++ (c ++ rest) := by
      show writeRecordBytes (.CreateFile n c.length) ++ c ++ rest = _
      simp
    have hrec : readRecord (writeRecordBytes (.CreateFile n c.length) ++ (c ++ rest)) =
        some (.CreateFile n c.length, c ++ rest) :=
      readRecord_writeRecord _ _
        ⟨show n.length < 18446744073709551616 by omega, hc⟩
        (by rw [serializeOp_create_length]; omega)
    have hok : ¬ ((base ++ [n]) ∈ fs.dirs ∨
        ((base ++ [n]).dropLast ≠ [] ∧ (base ++ [n]).dropLast ∉ fs.dirs)) := by
      rintro (h | ⟨hne, hnotin⟩)
      · exact hocc₁ h
      · rcases parent_ok n hpre with h | h
        · exact hne h
        · exact hnotin h
    rw [hstream, interpret_step_createfile hmk hrec hok (by simp), List.take_left,
      List.drop_left]
    rfl

  | .dir n es, base, fs, rest, hwf, hfresh, hpre => by
    obtain ⟨hn, hnames, hwfes⟩ := hwf
    have hpaths : entryPaths base (Entry.dir n es) =
        (base ++ [n]) :: entriesPaths (base ++ [n]) es := rfl
    rw [hpaths] at hfresh
    obtain ⟨hnodup, hocc⟩ := hfresh
    obtain ⟨hnotin, hndtail⟩ := List.nodup_cons.mp hnodup
    have hoccp := hocc _ (show (base ++ [n]) ∈ _ by simp)
    have hocc₁ : (base ++ [n]) ∉ fs.dirs := fun h => hoccp (List.mem_append.mpr (Or.inl h))
    have hocc₂ : (base ++ [n]) ∉ fs.fileNames :=
      fun h => hoccp (List.mem_append.mpr (Or.inr h))
    have hmk : createDirAll base fs = .ok fs := createDirAll_of_prefixesIn hpre
    have hcd : createDir (base ++ [n]) fs =
        .ok { fs with dirs := fs.dirs ++ [base ++ [n]] } :=
      createDir_ok hocc₁ hocc₂ (parent_ok n hpre)
    have hstream : encodeEntry (Entry.dir n es) ++ rest =
        writeRecordBytes (.EnterDirectory n) ++
          (encodeEntries es ++ (writeRecordBytes .LeaveDirectory ++ rest)) := by
      show writeRecordBytes (.EnterDirectory n) ++ encodeEntries es ++
        writeRecordBytes .LeaveDirectory ++ rest = _
      simp
    have hrecE : readRecord (writeRecordBytes (.EnterDirectory n) ++
        (encodeEntries es ++ (writeRecordBytes .LeaveDirectory ++ rest))) =
        some (.EnterDirectory n, encodeEntries es ++ (writeRecordBytes .LeaveDirectory ++ rest)) :=
      readRecord_writeRecord _ _ (show n.length < 18446744073709551616 by omega)
        (by rw [serializeOp_enter_length]; omega)
    rw [hstream, interpret_step_enter hmk hrecE hcd]
    have hpre₂ : PrefixesIn (base ++ [n]) { fs with dirs := fs.dirs ++ [base ++ [n]] } :=
      prefixesIn_insert n hpre
    have hfresh₂ : FreshList { fs with dirs := fs.dirs ++ [base ++ [n]] }
        (entriesPaths (base ++ [n]) es) := by
      refine ⟨hndtail, ?_⟩
      intro p hp hpo
      rw [occupied_insert_dir] at hpo
      rcases hpo with hpo | rfl
      · exact hocc p (by simp [hp]) hpo
      · exact hnotin hp
    rw [interpret_encodeEntries es (base ++ [n]) _ _ hwfes hfresh₂ hpre₂]
    have hpre₃ : PrefixesIn (base ++ [n])
        (applyEntries (base ++ [n]) es { fs with dirs := fs.dirs ++ [base ++ [n]] }) :=
      prefixesIn_applyEntries hpre₂
    have hmk₃ : createDirAll (base ++ [n])
        (applyEntries (base ++ [n]) es { fs with dirs := fs.dirs ++ [base ++ [n]] }) =
        .ok (applyEntries (base ++ [n]) es { fs with dirs := fs.dirs ++ [base ++ [n]] }) :=
      createDirAll_of_prefixesIn hpre₃
    have hrecL : readRecord (writeRecordBytes .LeaveDirectory ++ rest) =
        some (.LeaveDirectory, rest) :=
      readRecord_writeRecord _ _ trivial (by rw [serializeOp_leave_length]; omega)
    rw [interpret_step_leave hmk₃ hrecL, List.dropLast_concat]
    rfl

theorem interpret_encodeEntries : ∀ (es : List Entry) (base : Path) (fs : Fs)
    (rest : List Byte),
    WfEntries es → FreshList fs (entriesPaths base es) → PrefixesIn base fs →
    interpret (encodeEntries es ++ rest) base fs =
      interpret rest base (applyEntries base es fs)
  | [], base, fs, rest, _, _, _ => by
    show interpret ([] ++ rest) base fs = interpret rest base fs
    rw [List.nil_append]

  | e :: es, base, fs, rest, hwf, hfresh, hpre => by
    obtain ⟨hwfe, hwfes⟩ := hwf
    have hpaths : entriesPaths base (e :: es) =
        entryPaths base e ++ entriesPaths base es := rfl
    rw [hpaths] at hfresh
    obtain ⟨hnodup, hocc⟩ := hfresh
    obtain ⟨hnd1, hnd2, hdisj⟩ := List.nodup_append.mp hnodup
    have hstream : encodeEntries (e :: es) ++ rest =
        encodeEntry e ++ (encodeEntries es ++ rest) := by
      show encodeEntry e ++ encodeEntries es ++ rest = _
      simp
    rw [hstream, interpret_encodeEntry e base fs _ hwfe
      ⟨hnd1, fun p hp => hocc p (List.mem_append.mpr (Or.inl hp))⟩ hpre]
    have hfresh' : FreshList (applyEntry base e fs) (entriesPaths base es) := by
      refine ⟨hnd2, ?_⟩
      intro p hp hpo
      rw [occupied_applyEntry] at hpo
      rcases hpo with hpo | hpo
      · exact hocc p (List.mem_append.mpr (Or.inr hp)) hpo
      · exact hdisj hpo hp
    have hpre' : PrefixesIn base (applyEntry base e fs) := by
      intro q hq
      rw [applyEntry_dirs]
      exact List.mem_append.mpr (Or.inl (hpre q hq))
    rw [interpret_encodeEntries es base _ rest hwfes hfresh' hpre']
    rfl

end

/-! ## The backup write path emits the encoded stream -/

theorem chunksF_flatten : ∀ (fuel : Nat) (c : List Byte), c.length ≤ fuel →
    (chunksF fuel c).flatten = c := by
  intro fuel
  induction fuel with
  | zero =>
    intro c h
    obtain rfl : c = [] := List.length_eq_zero.mp (by omega)
    rfl
  | succ fuel ih =>
    intro c h
    cases c with
    | nil => rfl
    | cons b bs =>
      show ((b :: bs).take (1024 * 1024) ::
        chunksF fuel ((b :: bs).drop (1024 * 1024))).flatten = b :: bs
      rw [List.flatten_cons, ih _ (by simp only [List.length_drop]; omega),
        List.take_append_drop]

theorem chunks_flatten (c : List Byte) : (chunks c).flatten = c :=
  chunksF_flatten c.length c le_rfl

theorem recordBufs_flatten (op : StorageOperation) :
    (recordBufs op).flatten = writeRecordBytes op := by
  simp [recordBufs, writeRecordBytes]

mutual

theorem entryBufs_flatten : ∀ (e : Entry), (entryBufs e).flatten = encodeEntry e
  | .file n c => by
    show (recordBufs (.CreateFile n c.length) ++ chunks c).flatten =
      writeRecordBytes (.CreateFile n c.length) ++ c
    rw [List.flatten_append, recordBufs_flatten, chunks_flatten]

  | .dir n es => by
    show (recordBufs (.EnterDirectory n) ++ entriesBufs es ++
        recordBufs .LeaveDirectory).flatten =
      writeRecordBytes (.EnterDirectory n) ++ encodeEntries es ++
        writeRecordBytes .LeaveDirectory
    rw [List.flatten_append, List.flatten_append, recordBufs_flatten, recordBufs_flatten,
      entriesBufs_flatten es]

theorem entriesBufs_flatten : ∀ (es : List Entry), (entriesBufs es).flatten = encodeEntries es
  | [] => rfl
  | e :: es => by
    show (entryBufs e ++ entriesBufs es).flatten = encodeEntry e ++ encodeEntries es
    rw [List.flatten_append, entryBufs_flatten e, entriesBufs_flatten es]

end

theorem runWrites_spec : ∀ (bufs : List (List Byte)) (w : MultipartWriter),
    1 ≤ w.max_file_size →
    ∃ w', runWrites w bufs = some w' ∧
      w'.disk.flatten = w.disk.flatten ++ bufs.flatten ∧
      w'.max_file_size = w.max_file_size := by
  intro bufs
  induction bufs with
  | nil =>
    intro w hM
    exact ⟨w, rfl, by simp, rfl⟩
  | cons b bs ih =>
    intro w hM
    obtain ⟨w₁, hw₁, hflat₁, hmax₁⟩ := writeAll_spec w b hM
    obtain ⟨w', hw', hflat', hmax'⟩ := ih w₁ (hmax₁ ▸ hM)
    refine ⟨w', ?_, ?_, by rw [hmax', hmax₁]⟩
    · show (match w.writeAll b with
        | none => none
        | some w₂ => runWrites w₂ bs) = some w'
      simp only [hw₁]
      exact hw'
    · rw [hflat', hflat₁]
      show w.disk.flatten ++ b ++ bs.flatten = w.disk.flatten ++ (b ++ bs.flatten)
      simp

/-! ## Claims about the whole pipeline -/

/-- C1: Round-trip identity: for every well-formed source tree `T` and every
maximum part size `M ≥ 1`, the backup write path succeeds and the part files
it leaves on the destination, concatenated in numeric order, are exactly the
encoded record stream of `T`; the multipart reader hands the restorer exactly
that stream; and interpreting it at any destination root over an empty disk
succeeds and creates exactly the directories of `T` (beneath the freshly
created destination root) and exactly the files of `T` with their byte
contents — same directory names, same file names, same contents, same nesting
structure. -/
theorem claim_C1_round_trip (T : Entry) (M : Nat) (dest : Path)
    (hM : 1 ≤ M) (hwf : WfEntry T) :
    ∃ w, backupWriter T M = some w ∧
      w.disk.flatten = encodeEntry T ∧
      MultipartReader.readAll w.disk 8192 = encodeEntry T ∧
      ∃ fsr, interpret (encodeEntry T) dest Fs.empty = .ok fsr ∧
        (∀ p, p ∈ fsr.dirs ↔ p ∈ prefixesNE dest ∨ p ∈ dirPathsE dest T) ∧
        fsr.files = filePairsE dest T := by
  obtain ⟨w, hw, hflat, -⟩ :=
    runWrites_spec (entryBufs T) (MultipartWriter.new M) hM
  have hflatT : w.disk.flatten = encodeEntry T := by
    rw [hflat, entryBufs_flatten]
    show ([[]] : List (List Byte)).flatten ++ encodeEntry T = encodeEntry T
    simp
  refine ⟨w, hw, hflatT, by rw [readAll_eq w.disk 8192 (by omega), hflatT], ?_⟩
  obtain ⟨fs₀, hmk, hfiles₀, hdirs₀⟩ :=
    mkdirs_ok (prefixesNE dest) Fs.empty (by intro q hq h; exact absurd h (by simp [Fs.empty, Fs.fileNames]))
  have hfn₀ : fs₀.fileNames = [] := by
    unfold Fs.fileNames
    rw [hfiles₀]
    rfl
  have hpre₀ : PrefixesIn dest fs₀ := by
    intro q hq
    rw [hdirs₀ q]
    exact Or.inr hq
  have hfresh₀ : FreshList fs₀ (entryPaths dest T) := by
    refine ⟨entryPaths_nodup T dest hwf, ?_⟩
    intro p hp hpo
    rcases List.mem_append.mp hpo with hpo | hpo
    · rw [hdirs₀ p] at hpo
      rcases hpo with hpo | hpo
      · simp [Fs.empty] at hpo
      · have h1 := mem_prefixesNE_length hpo
        have h2 := (entryPaths_take T dest p hp).2
        omega
    · rw [hfn₀] at hpo
      simp at hpo
  have hpreT : PrefixesIn dest (applyEntry dest T fs₀) := by
    intro q hq
    rw [applyEntry_dirs]
    exact List.mem_append.mpr (Or.inl (hpre₀ q hq))
  have hchain : interpret (encodeEntry T) dest Fs.empty =
      .ok (applyEntry dest T fs₀) := by
    rw [interpret_skip_mkdirs hmk hpre₀,
      show encodeEntry T = encodeEntry T ++ [] by simp,
      interpret_encodeEntry T dest fs₀ [] hwf hfresh₀ hpre₀]
    exact interpret_step_stop (createDirAll_of_prefixesIn hpreT) rfl
  refine ⟨applyEntry dest T fs₀, hchain, ?_, ?_⟩
  · intro p
    rw [applyEntry_dirs, List.mem_append, hdirs₀ p]
    simp [Fs.empty]
  · rw [applyEntry_files T dest fs₀ (by rw [hfn₀]; simp)
      ((entryPaths_nodup T dest hwf).sublist (filePairs_fst_sublist T dest)), hfiles₀]
    rfl

/-- C1 witness: the empty directory named `[120]` ("x") backed up with maximum
part size 1 and restored at the destination root `[[100]]` ("d"). -/
theorem claim_C1_round_trip_witness :
    ∃ w, backupWriter (Entry.dir [120] []) 1 = some w ∧
      w.disk.flatten = encodeEntry (Entry.dir [120] []) ∧
      MultipartReader.readAll w.disk 8192 = encodeEntry (Entry.dir [120] []) ∧
      ∃ fsr, interpret (encodeEntry (Entry.dir [120] [])) [[100]] Fs.empty = .ok fsr ∧
        (∀ p, p ∈ fsr.dirs ↔
          p ∈ prefixesNE [[100]] ∨ p ∈ dirPathsE [[100]] (Entry.dir [120] [])) ∧
        fsr.files = filePairsE [[100]] (Entry.dir [120] []) :=
  claim_C1_round_trip (Entry.dir [120] []) 1 [[100]] (by decide)
    ⟨by decide, List.nodup_nil, trivial⟩

/-- C8 is false as stated: backing up the scenario tree
`root/{a.txt("hello"), sub/{b.txt("world")}}` with maximum part size 5 bytes
produces 25 part files (named 0 through 24), not the part files 0 through 4:
the encoded record stream is 123 bytes long. -/
theorem claim_C8_counterexample :
    (backupWriter scenarioTree 5).map (fun w => w.disk.length) = some 25 ∧
    (backupWriter scenarioTree 5).map (fun w => w.disk.length) ≠ some 5 ∧
    (encodeEntry scenarioTree).length = 123 := by
  refine ⟨by decide, by decide, by decide⟩

set_option maxRecDepth 4000 in
/-- C8 amended: with maximum part size 5 the scenario backup produces exactly
the part files 0 through 24 (25 parts; every part except the last holds
exactly 5 bytes), their concatenation is the 123-byte encoded stream, and
restoring that stream at destination root `[[100, 115, 116]]` ("dst")
reproduces `root/a.txt` = "hello" and `root/sub/b.txt` = "world". -/
theorem claim_C8_scenario_amended :
    (backupWriter scenarioTree 5).map (fun w => w.disk.length) = some 25 ∧
    (backupWriter scenarioTree 5).map
      (fun w => decide (∀ part ∈ w.disk.dropLast, part.length = 5)) = some true ∧
    (backupWriter scenarioTree 5).map (fun w => w.disk.flatten) =
      some (encodeEntry scenarioTree) ∧
    interpret (encodeEntry scenarioTree) [[100, 115, 116]] Fs.empty =
      .ok (Fs.mk
        [[[100, 115, 116]],
         [[100, 115, 116], [114, 111, 111, 116]],
         [[100, 115, 116], [114, 111, 111, 116], [115, 117, 98]]]
        [([[100, 115, 116], [114, 111, 111, 116], [97, 46, 116, 120, 116]],
          [104, 101, 108, 108, 111]),
         ([[100, 115, 116], [114, 111, 111, 116], [115, 117, 98], [98, 46, 116, 120, 116]],
          [119, 111, 114, 108, 100])]) :=
  ⟨by decide, by decide, by decide, rfl⟩

end Mbackk

